import Mathlib

/-!
Verification of the Quartiles Solver blocklist store, backup manager and
response parser (`solver.py`).

Modelling conventions:
* A Python string is modelled as a `List Nat` of Unicode code points. The
  character classes (`str.isalpha()`, `str.lower()`, whitespace, the `(?i)`
  flag) are modelled exactly for every code point below 256 (Latin-1); code
  points above 255 are treated as plain symbols (non-letter, non-space,
  case-fixed), which each class's doc comment notes.
* The blocklist file and the backup snapshots are modelled by the record
  `FS`: `blocklist` is the content of `blocklist.txt` (`none` when the file
  does not exist), `backups` is the list of snapshot files, each carrying its
  filesystem modification time (a `Nat`) and its content.
* A Python `set` of strings is modelled by its sorted duplicate-free list of
  elements; `sorted(...)` is modelled by insertion sort with the
  lexicographic (code-point) order, which is how Python compares strings.
* `for line in f` followed by `line.strip()` is modelled by splitting the
  file content at `'\n'` (code 10) and stripping each piece: the two only
  differ in whether the terminator is part of the line and in a final empty
  piece after a trailing newline, both of which `strip` / the emptiness check
  erase.
-/

namespace Quartiles

/-- Strings as lists of code points. -/
abbrev Str := List Nat

/-- Code points of a Lean string literal, used to write concrete test data. -/
def str (s : String) : Str := s.data.map Char.toNat

/-- Python whitespace (`str.strip()`, `str.isspace()` and the regex class
`\s` agree): TAB 9, LF 10, VT 11, FF 12, CR 13, FS–US 28–31, SPC 32,
NEL 133, NBSP 160. Exact for every code point below 256; Unicode whitespace
above Latin-1 (such as U+2028) is outside the modelled range. -/
def isSpace (c : Nat) : Bool :=
  c = 32 || c = 9 || c = 10 || c = 11 || c = 12 || c = 13 ||
  c = 28 || c = 29 || c = 30 || c = 31 || c = 133 || c = 160

/-- ASCII letter: the regex class `[a-zA-Z]` of
`re.sub(r'[^a-zA-Z-]', '', tok)` (line 156 of solver.py), and the spec's
notion of an ASCII letter. -/
def isAsciiAlpha (c : Nat) : Bool :=
  (65 ≤ c && c ≤ 90) || (97 ≤ c && c ≤ 122)

/-- Python `str.isalpha()` per character: exact for every code point below
256 — the ASCII letters plus the Latin-1 letters ª (170), µ (181), º (186),
À–Ö (192–214), Ø–ö (216–246) and ø–ÿ (248–255). Letters of other scripts
(code points ≥ 256) are outside the modelled range and treated as
non-letters. -/
def pyAlpha (c : Nat) : Bool :=
  (65 ≤ c && c ≤ 90) || (97 ≤ c && c ≤ 122) ||
  c = 170 || c = 181 || c = 186 ||
  (192 ≤ c && c ≤ 214) || (216 ≤ c && c ≤ 246) || (248 ≤ c && c ≤ 255)

/-- `c.isalpha() or c == "-"` (lines 45/87/104 of solver.py). -/
def isWordChar (c : Nat) : Bool := pyAlpha c || c = 45

/-- The regex class `[a-zA-Z-]` kept by `re.sub(r'[^a-zA-Z-]', '', tok)`
(line 156): genuinely ASCII-only in the source, unlike `isalpha()`. -/
def isAsciiWordChar (c : Nat) : Bool := isAsciiAlpha c || c = 45

/-- `str.lower()` per character: `A`–`Z` (65–90) and `À`–`Þ` (192–222,
excluding `×` 215) move down 32; exact for every code point below 256
(no other Latin-1 character changes under `lower()`). -/
def lowerChar (c : Nat) : Nat :=
  if (65 ≤ c && c ≤ 90) || (192 ≤ c && c ≤ 222 && c != 215) then c + 32
  else c

/-- `s.lower()`. -/
def lower (s : Str) : Str := s.map lowerChar

/-- `s.strip()`: drop leading and trailing whitespace. -/
def strip (s : Str) : Str :=
  ((s.dropWhile isSpace).reverse.dropWhile isSpace).reverse

/-- Split file content at `'\n'` (code 10), keeping empty pieces; models
Python's line iteration (see the header comment). -/
def splitLines : Str → List Str
  | [] => [[]]
  | c :: cs =>
    if c = 10 then [] :: splitLines cs
    else
      match splitLines cs with
      | [] => [[c]]
      | l :: ls => (c :: l) :: ls

/-- Python string comparison `a < b`: lexicographic by code point, a strict
prefix is smaller. -/
def strLt : Str → Str → Bool
  | [], [] => false
  | [], _ :: _ => true
  | _ :: _, [] => false
  | a :: as, b :: bs =>
    if a < b then true else if b < a then false else strLt as bs

/-- Python `a <= b` on strings. -/
def strLe (a b : Str) : Bool := !(strLt b a)

/-- The order `sorted(...)` sorts by, as a proposition. -/
def wordLe (a b : Str) : Prop := strLe a b = true

instance : DecidableRel wordLe := fun a b =>
  inferInstanceAs (Decidable (strLe a b = true))

/-- Python `sorted(...)` on a list of strings. -/
def sortWords (l : List Str) : List Str := List.insertionSort wordLe l

/-- The canonical list representing a Python `set` of strings: its elements,
sorted and without duplicates. -/
def canon (l : List Str) : List Str := sortWords l.dedup

/-- The filter body shared verbatim by `load_blocklist` (lines 81–88) and
`clean_blocklist_file` (lines 39–46): strip and lowercase the line, skip it
when empty or starting with `#` (35) or `-` (45), keep it when every
character is a letter or `-`. -/
def acceptLine (line : Str) : Option Str :=
  let w := lower (strip line)
  if w = [] then none
  else if w.head? = some 35 || w.head? = some 45 then none
  else if w.all isWordChar then some w
  else none

/-- The set of words the load/clean loop accepts from a file content. -/
def acceptedWords (content : Str) : List Str :=
  (splitLines content).filterMap acceptLine

/-- The loop `for w in sorted(ws): f.write(w + "\n")` of `save_blocklist`
(lines 94–95) and `clean_blocklist_file` (lines 49–50), applied to an
already-sorted list. -/
def writeWords (ws : List Str) : Str :=
  ws.foldr (fun w acc => w ++ 10 :: acc) []

/-- File-system state: the live `blocklist.txt` (`none` when absent) and the
backup snapshots, each with its modification time and content. -/
structure FS where
  blocklist : Option Str
  backups : List (Nat × Str)
deriving DecidableEq, Repr

/-- `load_blocklist` (solver.py lines 76–89): create an empty file when
absent; otherwise collect the accepted words of every line. The returned
Python set is represented canonically (sorted, no duplicates). -/
def load_blocklist (fs : FS) : FS × List Str :=
  match fs.blocklist with
  | none => ({ fs with blocklist := some [] }, [])
  | some content => (fs, canon (acceptedWords content))

/-- `save_blocklist` (lines 92–95): overwrite the file with the words,
sorted, one per line. -/
def save_blocklist (ws : List Str) (fs : FS) : FS :=
  { fs with blocklist := some (writeWords (sortWords ws)) }

/-- `clean_blocklist_file` (lines 32–52): when the file is absent create it
empty and return; otherwise rewrite it with the accepted words of its lines,
sorted and deduplicated. -/
def clean_blocklist_file (fs : FS) : FS :=
  match fs.blocklist with
  | none => { fs with blocklist := some [] }
  | some content =>
    { fs with blocklist := some (writeWords (canon (acceptedWords content))) }

/-- The four user-visible outcomes of `add_invalid`. -/
inductive AddResult where
  | emptyInput
  | badChars
  | alreadyPresent
  | added
deriving DecidableEq, Repr

/-- `add_invalid` (lines 98–112): load (which may create the file), trim and
lowercase the input, reject empty input or characters other than letters and
`-`, report a word already present, otherwise insert it and save. -/
def add_invalid (word : Str) (fs : FS) : FS × AddResult :=
  let p := load_blocklist fs
  let w := lower (strip word)
  if w = [] then (p.1, .emptyInput)
  else if !(w.all isWordChar) then (p.1, .badChars)
  else if w ∈ p.2 then (p.1, .alreadyPresent)
  else (save_blocklist (w :: p.2) p.1, .added)

/-- `backup_blocklist` (lines 20–29): no-op when the live file is absent,
otherwise copy it to a fresh snapshot; `t` is the snapshot's modification
time supplied by the clock. -/
def backup_blocklist (t : Nat) (fs : FS) : FS :=
  match fs.blocklist with
  | none => fs
  | some c => { fs with backups := fs.backups ++ [(t, c)] }

/-- `sorted(glob.glob(...), key=os.path.getmtime, reverse=True)[0]`
(lines 56–64): the first snapshot with the largest modification time (the
sort is stable, so among equal times the earlier one in enumeration order
is kept). -/
def latestBackup : List (Nat × Str) → Option (Nat × Str)
  | [] => none
  | b :: bs =>
    match latestBackup bs with
    | none => some b
    | some b2 => some (if b.1 < b2.1 then b2 else b)

/-- Case-insensitive literal prefix match, the model of the `(?i)` flag on a
literal: drop `pat` from the front of `s` comparing characters up to case.
Two Latin-1 characters are matched by `(?i)` exactly when `lowerChar` maps
them to the same code point. -/
def dropPrefixCI : Str → Str → Option Str
  | [], s => some s
  | _ :: _, [] => none
  | p :: ps, c :: cs =>
    if lowerChar c = lowerChar p then dropPrefixCI ps cs else none

/-- Where the regex scan resumes: the suffix after the first newline (under
flag `m`, `^` matches only at the start of the text and right after a
`'\n'`; a failed attempt moves to the next line, and a match always ends
just before a newline or at the end). -/
def nextLineStart (s : Str) : Str := (s.dropWhile fun c => c != 10).tail

/-- The `\s*(.+)$` tail of the pattern of line 145, applied to the text
after the `:`. Greedy `\s*` runs to the first non-whitespace character —
crossing newlines, since `\s` matches `'\n'` — and `(.+)` then captures
from there to the end of that line (`.` does not match `'\n'`, and `$`
holds before a newline or at the end). When the whole remainder is
whitespace, backtracking hands the last non-newline whitespace character
back to `.+`, which captures it alone; with no such character there is no
match. Returns the capture and the text after the match. -/
def captureStage (s3 : Str) : Option (Str × Str) :=
  match s3.dropWhile isSpace with
  | [] =>
    match s3.reverse.dropWhile (fun c => c == 10) with
    | [] => none
    | cl :: _ => some ([cl], s3.reverse.takeWhile fun c => c == 10)
  | z :: zs =>
    some ((z :: zs).takeWhile (fun c => c != 10),
      (z :: zs).dropWhile fun c => c != 10)

/-- One attempt of `^\s*INVALID\s*:\s*(.+)$` with the leading `\s*` already
consumed: the literal `INVALID` case-insensitively, optional whitespace
(which may cross newlines), `:` (58), then the capture tail. -/
def matchCore (s1 : Str) : Option (Str × Str) :=
  match dropPrefixCI (str "INVALID") s1 with
  | none => none
  | some s2 =>
    match s2.dropWhile isSpace with
    | [] => none
    | c :: s3 => if c = 58 then captureStage s3 else none

/-- One attempt of the pattern at a line-start position: `^` holds there,
and the greedy leading `\s*` skips all whitespace, newlines included. -/
def matchAt (s : Str) : Option (Str × Str) := matchCore (s.dropWhile isSpace)

/-- `re.findall(r'(?im)^\s*INVALID\s*:\s*(.+)$', text)` (line 145): scan
the line starts left to right; a successful attempt emits its capture and
scanning resumes after the match, a failed attempt moves to the next line.
The fuel argument only bounds the recursion depth; `findInvalid` below
supplies enough fuel for any text. -/
def findInvalidAux : Nat → Str → List Str
  | 0, _ => []
  | _ + 1, [] => []
  | n + 1, c :: cs =>
    match matchAt (c :: cs) with
    | some p => p.1 :: findInvalidAux n (nextLineStart p.2)
    | none => findInvalidAux n (nextLineStart (c :: cs))

/-- The capture list of `re.findall(r'(?im)^\s*INVALID\s*:\s*(.+)$', text)`,
in scan order. -/
def findInvalid (s : Str) : List Str := findInvalidAux (s.length + 1) s

/-- The regex class `[,\s]` of `re.split(r'[,\s]+', joined)` (line 149). -/
def isTokenDelim (c : Nat) : Bool := c = 44 || isSpace c

/-- `re.split(r'[,\s]+', s)`: split at maximal runs of commas/whitespace,
with an empty piece at an end that starts or finishes with such a run. A
delimiter contributes the boundary empty piece only at the last character of
its run. -/
def splitTokens : Str → List Str
  | [] => [[]]
  | [c] => if isTokenDelim c then [[], []] else [[c]]
  | c :: c2 :: cs =>
    if isTokenDelim c then
      if isTokenDelim c2 then splitTokens (c2 :: cs)
      else [] :: splitTokens (c2 :: cs)
    else
      match splitTokens (c2 :: cs) with
      | [] => [[c]]
      | t :: ts => (c :: t) :: ts

/-- `" ".join(lines)` (sep 32) and, with sep 10, concatenating lines with
newlines. -/
def joinWith (sep : Nat) : List Str → Str
  | [] => []
  | [l] => l
  | l :: l2 :: ls => l ++ sep :: joinWith sep (l2 :: ls)

/-- The stopword set of lines 150–153. -/
def stopSet : List Str :=
  [str "word", str "words", str "tile", str "tiles", str "invalid",
   str "blocked", str "example", str "sample", str "placeholder",
   str "unusable", str "none"]

/-- The loop body of lines 155–163: keep of a raw token only ASCII letters
and `-`, lowercase, and drop empty results, stopwords, lengths outside
[2, 20] and words already blocked. -/
def tokenFilter (existing : List Str) (tok : Str) : Option Str :=
  let w := lower (tok.filter isAsciiWordChar)
  if w = [] then none
  else if w ∈ stopSet then none
  else if w.length < 2 || 20 < w.length then none
  else if w ∈ existing then none
  else some w

/-- Lines 146–164 of `detect_potential_invalids`, applied to the collected
captures: return `[]` when there are none; otherwise join them with spaces,
split into tokens, filter each through `tokenFilter`, and return the
survivors sorted without duplicates. -/
def detectFrom (lines : List Str) (existing : List Str) : List Str :=
  if lines = [] then []
  else
    let tokens := splitTokens (joinWith 32 lines)
    let out := tokens.filterMap (tokenFilter existing)
    sortWords out.dedup

/-- `detect_potential_invalids` (lines 144–164): the capture list of the
`INVALID:` pattern, post-processed by `detectFrom`. -/
def detect_potential_invalids (text : Str) (existing : List Str) : List Str :=
  detectFrom (findInvalid text) existing

/-- The two user-visible outcomes of `restore_latest_backup`. -/
inductive RestoreResult where
  | restored
  | noBackups
deriving DecidableEq, Repr

/-- `restore_latest_backup` (lines 55–69): when no snapshot exists report a
benign warning and change nothing; otherwise copy the snapshot with the most
recent modification time over the live file. -/
def restore_latest_backup (fs : FS) : FS × RestoreResult :=
  match latestBackup fs.backups with
  | none => (fs, .noBackups)
  | some b => ({ fs with blocklist := some b.2 }, .restored)

/-- `save_blocklist(load_blocklist())`, the round trip of claim C4. -/
def save_after_load (fs : FS) : FS :=
  let p := load_blocklist fs
  save_blocklist p.2 p.1

/-- The spec's line-validity predicate, written from the spec's words: after
trim+lowercase the line is non-empty, does not start with `#` or `-`, and
every character is an ASCII letter or `-`. -/
def specLineValid (line : Str) : Prop :=
  lower (strip line) ≠ [] ∧
  (lower (strip line)).head? ≠ some 35 ∧
  (lower (strip line)).head? ≠ some 45 ∧
  ∀ c ∈ lower (strip line), isAsciiAlpha c = true ∨ c = 45

/-- The amended line-validity predicate of claim C1, written from the
amended claim's words: after trim+lowercase the line is non-empty, does not
start with `#` or `-`, and every character is alphabetic in Python's sense
(`str.isalpha()`) or a hyphen. -/
def pyLineValid (line : Str) : Prop :=
  lower (strip line) ≠ [] ∧
  (lower (strip line)).head? ≠ some 35 ∧
  (lower (strip line)).head? ≠ some 45 ∧
  ∀ c ∈ lower (strip line), pyAlpha c = true ∨ c = 45

instance (line : Str) : Decidable (specLineValid line) := by
  unfold specLineValid
  infer_instance

instance (line : Str) : Decidable (pyLineValid line) := by
  unfold pyLineValid
  infer_instance

/-- The marker test of claim C5, written from the claim's words: optional
whitespace, then `INVALID` case-insensitively, then optional whitespace and
`:`. Applied to a single line it reads as the claim's per-line test; applied
to a whole suffix of the text, its whitespace skips may cross newlines,
matching the anchored regex prefix. -/
def specMarker (u : Str) : Bool :=
  match dropPrefixCI (str "INVALID") (u.dropWhile isSpace) with
  | none => false
  | some r =>
    match r.dropWhile isSpace with
    | [] => false
    | c :: _ => c = 58

/-- The suffixes of `s` that start right after a newline. -/
def lineStartsAux : Str → List Str
  | [] => []
  | c :: cs => if c = 10 then cs :: lineStartsAux cs else lineStartsAux cs

/-- The suffixes of `s` at which the multiline `^` anchor holds: the whole
text and every suffix following a newline. -/
def lineStarts (s : Str) : List Str := s :: lineStartsAux s

/-- Case-insensitive substring test: some suffix of `s` starts with `pat`
up to case. -/
def containsCI (pat : Str) : Str → Bool
  | [] => (dropPrefixCI pat []).isSome
  | c :: cs => (dropPrefixCI pat (c :: cs)).isSome || containsCI pat cs

/-- A string that is empty or ends with a newline: the shape of the text
before a line start. -/
def EndNl (a : Str) : Prop := a = [] ∨ a.getLast? = some 10

/-- Non-newline whitespace, the indentation inserted in claim C10. -/
def WsOk (ws : Str) : Prop := ∀ c ∈ ws, isSpace c = true ∧ c ≠ 10

/-- Capture lists made of token delimiters only; such captures contribute
no tokens to the parser's output. -/
def AllDelim (X : List Str) : Prop := ∀ x ∈ X, ∀ c ∈ x, isTokenDelim c = true

/-- The response text of the spec's parser test vector. -/
def testResponse : Str := str "Solved!\nINVALID: Foo, bar1, the, none\n"

/-! ### Character-level lemmas -/

theorem lowerChar_idem (c : Nat) : lowerChar (lowerChar c) = lowerChar c := by
  unfold lowerChar
  split_ifs <;> simp_all <;> omega

theorem wordChar_not_space {c : Nat} (h : isWordChar c = true) :
    isSpace c = false := by
  unfold isWordChar pyAlpha at h
  unfold isSpace
  simp only [Bool.or_eq_true, Bool.and_eq_true, decide_eq_true_eq] at h ⊢
  simp only [Bool.or_eq_false_iff, decide_eq_false_iff_not]
  omega

theorem wordChar_ne_newline {c : Nat} (h : isWordChar c = true) : c ≠ 10 := by
  unfold isWordChar pyAlpha at h
  simp only [Bool.or_eq_true, Bool.and_eq_true, decide_eq_true_eq] at h
  omega

/-! ### The order used by `sorted(...)` -/

theorem strLt_irrefl : ∀ a : Str, strLt a a = false
  | [] => rfl
  | c :: cs => by simp [strLt, strLt_irrefl cs]

theorem strLt_asymm : ∀ a b : Str, strLt a b = true → strLt b a = false
  | [], [] => by simp [strLt]
  | [], _ :: _ => by simp [strLt]
  | _ :: _, [] => by simp [strLt]
  | a :: as, b :: bs => by
    intro h
    simp only [strLt] at h ⊢
    split_ifs at h ⊢ with h1 h2 <;>
      first
        | rfl
        | (exfalso; omega)
        | exact strLt_asymm as bs h
        | simp_all

theorem strLt_trans :
    ∀ a b c : Str, strLt a b = true → strLt b c = true → strLt a c = true
  | [], [], _ => by simp [strLt]
  | [], _ :: _, [] => by simp [strLt]
  | [], _ :: _, _ :: _ => by simp [strLt]
  | _ :: _, [], _ => by simp [strLt]
  | _ :: _, _ :: _, [] => by simp [strLt]
  | a :: as, b :: bs, c :: cs => by
    intro hab hbc
    simp only [strLt] at hab hbc ⊢
    split_ifs at hab hbc ⊢ <;>
      first
        | rfl
        | (exfalso; omega)
        | exact strLt_trans as bs cs hab hbc
        | simp_all

theorem strLt_conn :
    ∀ a b : Str, strLt a b = false → strLt b a = false → a = b
  | [], [] => by simp
  | [], _ :: _ => by simp [strLt]
  | _ :: _, [] => by simp [strLt]
  | a :: as, b :: bs => by
    intro hab hba
    simp only [strLt] at hab hba
    split_ifs at hab hba with h1 h2 <;>
      first
        | (have hh : a = b := by omega
           have ht : as = bs := strLt_conn as bs hab hba
           rw [hh, ht])
        | simp_all

instance : IsTotal Str wordLe :=
  ⟨fun a b => by
    unfold wordLe strLe
    by_cases h : strLt b a = true
    · right
      simp [strLt_asymm b a h]
    · left
      simp only [Bool.not_eq_true] at h
      simp [h]⟩

instance : IsTrans Str wordLe :=
  ⟨fun a b c hab hbc => by
    unfold wordLe strLe at *
    simp only [Bool.not_eq_true'] at hab hbc ⊢
    by_contra hca
    simp only [Bool.not_eq_false] at hca
    by_cases hbc2 : strLt b c = true
    · exact absurd (strLt_trans b c a hbc2 hca) (by simp [hab])
    · have : b = c := strLt_conn b c (by simpa using hbc2) hbc
      subst this
      exact absurd hca (by simp [hab])⟩

theorem strLt_of_le_ne {a b : Str} (h : wordLe a b) (hne : a ≠ b) :
    strLt a b = true := by
  unfold wordLe strLe at h
  simp only [Bool.not_eq_true'] at h
  by_cases h2 : strLt a b = true
  · exact h2
  · exact absurd (strLt_conn a b (by simpa using h2) h) hne

/-! ### `canon`: the sorted duplicate-free representation of a set -/

theorem canon_sorted (l : List Str) : List.Sorted wordLe (canon l) :=
  List.sorted_insertionSort wordLe l.dedup

theorem canon_nodup (l : List Str) : (canon l).Nodup :=
  (List.perm_insertionSort wordLe l.dedup).nodup_iff.mpr (List.nodup_dedup l)

theorem mem_canon {a : Str} {l : List Str} : a ∈ canon l ↔ a ∈ l := by
  unfold canon sortWords
  rw [List.mem_insertionSort, List.mem_dedup]

theorem sortWords_eq_self {l : List Str} (h : List.Sorted wordLe l) :
    sortWords l = l :=
  h.insertionSort_eq

theorem canon_eq_self {l : List Str} (hs : List.Sorted wordLe l)
    (hn : l.Nodup) : canon l = l := by
  unfold canon
  rw [List.dedup_eq_self.mpr hn]
  exact hs.insertionSort_eq

theorem canon_canon (l : List Str) : canon (canon l) = canon l :=
  canon_eq_self (canon_sorted l) (canon_nodup l)

theorem canon_pairwise_lt (l : List Str) :
    List.Pairwise (fun a b => strLt a b = true) (canon l) :=
  ((canon_sorted l).and (canon_nodup l)).imp fun h => strLt_of_le_ne h.1 h.2

/-! ### Lines, stripping and the acceptance predicate -/

theorem dropWhile_eq_self {p : Nat → Bool} {l : Str}
    (h : ∀ c ∈ l, p c = false) : l.dropWhile p = l := by
  cases l with
  | nil => rfl
  | cons c cs => rw [List.dropWhile_cons, h c (by simp)]; simp

theorem strip_eq_self {w : Str} (h : ∀ c ∈ w, isSpace c = false) :
    strip w = w := by
  unfold strip
  rw [dropWhile_eq_self h, dropWhile_eq_self fun c hc => h c (by simpa using hc)]
  simp

theorem lower_lower : ∀ s : Str, lower (lower s) = lower s
  | [] => rfl
  | c :: cs => by simp [lower, lowerChar_idem, lower_lower cs]

theorem acceptLine_eq_some {line w : Str} :
    acceptLine line = some w ↔
      w = lower (strip line) ∧ w ≠ [] ∧ w.head? ≠ some 35 ∧
        w.head? ≠ some 45 ∧ w.all isWordChar = true := by
  simp only [acceptLine]
  split_ifs with h1 h2 h3
  · constructor
    · intro h; exact absurd h (by simp)
    · rintro ⟨hw, hne, -⟩; exact absurd (hw.trans h1) hne
  · constructor
    · intro h; exact absurd h (by simp)
    · rintro ⟨hw, -, h35, h45, -⟩
      subst hw
      simp only [Bool.or_eq_true, decide_eq_true_eq] at h2
      rcases h2 with h | h
      exacts [absurd h h35, absurd h h45]
  · simp only [Bool.or_eq_true, decide_eq_true_eq, not_or] at h2
    constructor
    · intro h
      obtain rfl : lower (strip line) = w := by simpa using h
      exact ⟨rfl, h1, h2.1, h2.2, h3⟩
    · rintro ⟨hw, -, -, -, -⟩; rw [hw]
  · constructor
    · intro h; exact absurd h (by simp)
    · rintro ⟨hw, -, -, -, hall⟩; subst hw; exact absurd hall h3

theorem accepted_fix {line w : Str} (h : acceptLine line = some w) :
    acceptLine w = some w := by
  obtain ⟨hw, hne, h35, h45, hall⟩ := acceptLine_eq_some.mp h
  rw [List.all_eq_true] at hall
  have hsp : strip w = w := strip_eq_self fun c hc => wordChar_not_space (hall c hc)
  have hlw : lower w = w := by rw [hw, lower_lower]
  exact acceptLine_eq_some.mpr
    ⟨by rw [hsp, hlw], hne, h35, h45, by rw [List.all_eq_true]; exact hall⟩

theorem accepted_no_newline {line w : Str} (h : acceptLine line = some w) :
    (10 : Nat) ∉ w := by
  have hall := (acceptLine_eq_some.mp h).2.2.2.2
  rw [List.all_eq_true] at hall
  exact fun hm => wordChar_ne_newline (hall _ hm) rfl

theorem splitLines_append_newline :
    ∀ (w rest : Str), (10 : Nat) ∉ w →
      splitLines (w ++ 10 :: rest) = w :: splitLines rest
  | [], rest, _ => by simp [splitLines]
  | c :: w, rest, h => by
    have hc : c ≠ 10 := fun e => h (by simp [e])
    have ih := splitLines_append_newline w rest fun hm => h (by simp [hm])
    simp only [List.cons_append, splitLines]
    rw [if_neg hc]
    simp only [List.append_eq]
    rw [ih]

theorem splitLines_no_newline :
    ∀ w : Str, (10 : Nat) ∉ w → splitLines w = [w]
  | [], _ => rfl
  | c :: w, h => by
    have hc : c ≠ 10 := fun e => h (by simp [e])
    have ih := splitLines_no_newline w fun hm => h (by simp [hm])
    simp only [splitLines]
    rw [if_neg hc, ih]

theorem writeWords_cons (w : Str) (ws : List Str) :
    writeWords (w :: ws) = w ++ 10 :: writeWords ws := rfl

theorem splitLines_writeWords :
    ∀ {ws : List Str}, (∀ w ∈ ws, (10 : Nat) ∉ w) →
      splitLines (writeWords ws) = ws ++ [[]]
  | [], _ => rfl
  | w :: ws, h => by
    rw [writeWords_cons, splitLines_append_newline w _ (h w (by simp)),
      splitLines_writeWords fun v hv => h v (by simp [hv])]
    simp

theorem acceptLine_nil : acceptLine [] = none := rfl

theorem filterMap_accept_fixed :
    ∀ (ws : List Str), (∀ w ∈ ws, acceptLine w = some w) →
      (ws ++ [[]]).filterMap acceptLine = ws
  | [], _ => rfl
  | w :: ws, h => by
    simp only [List.cons_append, List.filterMap_cons, h w (by simp)]
    exact congrArg (w :: ·) (filterMap_accept_fixed ws fun v hv => h v (by simp [hv]))

theorem mem_acceptedWords_fix {content w : Str}
    (h : w ∈ acceptedWords content) : acceptLine w = some w := by
  unfold acceptedWords at h
  obtain ⟨line, -, hl⟩ := List.mem_filterMap.mp h
  exact accepted_fix hl

theorem acceptedWords_writeWords {ws : List Str}
    (h : ∀ w ∈ ws, acceptLine w = some w) :
    acceptedWords (writeWords ws) = ws := by
  unfold acceptedWords
  rw [splitLines_writeWords fun w hw => accepted_no_newline (h w hw),
    filterMap_accept_fixed ws h]

/-! ### Claim theorems: blocklist store -/


/-- Claim C3: `clean` is idempotent: a second run rewrites the file to exactly the
content left by the first run, whatever the starting state. -/
theorem clean_idempotent (fs : FS) :
    clean_blocklist_file (clean_blocklist_file fs) = clean_blocklist_file fs := by
  cases fs with
  | mk bl bk =>
    cases bl with
    | none => rfl
    | some content =>
      simp only [clean_blocklist_file]
      rw [acceptedWords_writeWords fun w hw =>
        mem_acceptedWords_fix (mem_canon.mp hw), canon_canon]

/-- Claim C4: one `save(load())` pass leaves the file with one accepted word per
line, strictly sorted (ascending, hence no duplicates), and is a fixed point
of further `save(load())` passes. -/
theorem saveload_roundtrip (fs : FS) :
    (∃ ws, (save_after_load fs).blocklist = some (writeWords ws) ∧
        List.Pairwise (fun a b => strLt a b = true) ws ∧
        ∀ w ∈ ws, acceptLine w = some w) ∧
      save_after_load (save_after_load fs) = save_after_load fs := by
  cases fs with
  | mk bl bk =>
    cases bl with
    | none => exact ⟨⟨[], rfl, List.Pairwise.nil, by simp⟩, rfl⟩
    | some content =>
      have hacc : ∀ w ∈ canon (acceptedWords content), acceptLine w = some w :=
        fun w hw => mem_acceptedWords_fix (mem_canon.mp hw)
      have hsort : sortWords (canon (acceptedWords content))
          = canon (acceptedWords content) := sortWords_eq_self (canon_sorted _)
      constructor
      · refine ⟨canon (acceptedWords content), ?_, canon_pairwise_lt _, hacc⟩
        simp only [save_after_load, load_blocklist, save_blocklist]
        rw [hsort]
      · simp only [save_after_load, load_blocklist, save_blocklist]
        rw [hsort, acceptedWords_writeWords hacc, canon_canon, hsort]

/-! ### Claim theorems: add, backup and restore -/

theorem no_newline_of_all {w : Str} (h : w.all isWordChar = true) :
    (10 : Nat) ∉ w := by
  rw [List.all_eq_true] at h
  exact fun hm => wordChar_ne_newline (h _ hm) rfl

theorem mem_load_not_hyphen {fs : FS} {w : Str}
    (h : w ∈ (load_blocklist fs).2) : w.head? ≠ some 45 := by
  cases fs with
  | mk bl bk =>
    cases bl with
    | none => simp [load_blocklist] at h
    | some c =>
      simp only [load_blocklist] at h
      exact (acceptLine_eq_some.mp (mem_acceptedWords_fix (mem_canon.mp h))).2.2.2.1

theorem mem_load_wordChar {fs : FS} {w : Str}
    (h : w ∈ (load_blocklist fs).2) : w.all isWordChar = true := by
  cases fs with
  | mk bl bk =>
    cases bl with
    | none => simp [load_blocklist] at h
    | some c =>
      simp only [load_blocklist] at h
      exact (acceptLine_eq_some.mp (mem_acceptedWords_fix (mem_canon.mp h))).2.2.2.2

/-- Claim C7 counterexample: with the blocklist file absent, `add("")` is rejected
as empty input yet does not leave the file system unchanged — the initial
load creates an empty blocklist file. -/
theorem add_reject_cex :
    (add_invalid (str "") ⟨none, []⟩).2 = .emptyInput ∧
      (add_invalid (str "") ⟨none, []⟩).1 ≠ (⟨none, []⟩ : FS) := by decide

/-- Claim C7 amended: for every input that is empty after trimming or contains a
character other than a letter or hyphen, `add` reports rejection and,
provided the blocklist file exists, leaves the file system (in particular
the persisted blocklist) unchanged. -/
theorem add_reject_unchanged (fs : FS) (word : Str)
    (hex : fs.blocklist.isSome = true)
    (hbad : lower (strip word) = [] ∨
      ¬((lower (strip word)).all isWordChar = true)) :
    (add_invalid word fs).1 = fs ∧
      ((add_invalid word fs).2 = .emptyInput ∨
        (add_invalid word fs).2 = .badChars) := by
  obtain ⟨c, hc⟩ := Option.isSome_iff_exists.mp hex
  cases fs with
  | mk bl bk =>
    simp only at hc
    subst hc
    by_cases h0 : lower (strip word) = []
    · simp [add_invalid, load_blocklist, h0]
    · have hb : (lower (strip word)).all isWordChar = false :=
        Bool.not_eq_true _ ▸ hbad.resolve_left h0
      simp [add_invalid, load_blocklist, h0, hb]

/-- Witness for the amended C7 at the spec's concrete input `"foo bar"`. -/
theorem add_reject_unchanged_w :
    (add_invalid (str "foo bar") ⟨some (str "abc\n"), []⟩).1
        = (⟨some (str "abc\n"), []⟩ : FS) ∧
      ((add_invalid (str "foo bar") ⟨some (str "abc\n"), []⟩).2 = .emptyInput ∨
        (add_invalid (str "foo bar") ⟨some (str "abc\n"), []⟩).2 = .badChars) :=
  add_reject_unchanged ⟨some (str "abc\n"), []⟩ (str "foo bar")
    (by decide) (by decide)

/-- Claim C9: an input whose trimmed, lowercased form starts with a hyphen and
consists of letters and hyphens is accepted by `add` and written to the
file, yet a subsequent `load` does not return it. -/
theorem add_hyphen_lost (fs : FS) (word : Str)
    (h1 : lower (strip word) ≠ [])
    (h2 : (lower (strip word)).head? = some 45)
    (h3 : (lower (strip word)).all isWordChar = true) :
    (add_invalid word fs).2 = .added ∧
      (∃ content, (add_invalid word fs).1.blocklist = some content ∧
        lower (strip word) ∈ splitLines content) ∧
      lower (strip word) ∉ (load_blocklist (add_invalid word fs).1).2 := by
  have hnotin : lower (strip word) ∉ (load_blocklist fs).2 :=
    fun hm => mem_load_not_hyphen hm h2
  have hnot : (!((lower (strip word)).all isWordChar)) = false := by
    rw [h3]; rfl
  have hstep : add_invalid word fs =
      (save_blocklist (lower (strip word) :: (load_blocklist fs).2)
        (load_blocklist fs).1, .added) := by
    simp [add_invalid, h1, hnot, hnotin]
  refine ⟨by rw [hstep], ⟨writeWords
    (sortWords (lower (strip word) :: (load_blocklist fs).2)), ?_, ?_⟩,
    fun hm => mem_load_not_hyphen hm h2⟩
  · rw [hstep]; rfl
  · rw [splitLines_writeWords ?_]
    · exact List.mem_append_left _
        (List.mem_insertionSort wordLe |>.mpr (List.mem_cons_self _ _))
    · intro v hv
      rcases List.mem_cons.mp ((List.mem_insertionSort wordLe).mp hv) with h | h
      · exact no_newline_of_all (h ▸ h3)
      · exact no_newline_of_all (mem_load_wordChar h)

/-- Witness for C9 at the input `"-foo"` and an empty blocklist file. -/
theorem add_hyphen_lost_w :
    (add_invalid (str "-foo") ⟨some [], []⟩).2 = .added ∧
      (∃ content,
          (add_invalid (str "-foo") ⟨some [], []⟩).1.blocklist = some content ∧
          lower (strip (str "-foo")) ∈ splitLines content) ∧
      lower (strip (str "-foo"))
        ∉ (load_blocklist (add_invalid (str "-foo") ⟨some [], []⟩).1).2 :=
  add_hyphen_lost ⟨some [], []⟩ (str "-foo") (by decide) (by decide) (by decide)

theorem latestBackup_append_max :
    ∀ (bs : List (Nat × Str)) (t : Nat) (c : Str), (∀ b ∈ bs, b.1 < t) →
      latestBackup (bs ++ [(t, c)]) = some (t, c)
  | [], _, _, _ => rfl
  | b :: bs, t, c, h => by
    simp only [List.cons_append, latestBackup, List.append_eq]
    rw [latestBackup_append_max bs t c fun v hv => h v (by simp [hv])]
    have hbt : b.1 < t := h b (by simp)
    simp [hbt]

/-- Claim C8: after `backup()` on an existing blocklist file with a fresh
(strictly most recent) timestamp, deleting or corrupting the live file and
then calling `restoreLatest()` rewrites the live file with the content of
that most recent snapshot; and with no snapshot present, restore reports the
benign not-found outcome and changes nothing. -/
theorem backup_restore (fs : FS) (c : Str) (t : Nat) (damage : Option Str)
    (hb : fs.blocklist = some c) (ht : ∀ b ∈ fs.backups, b.1 < t) :
    restore_latest_backup { backup_blocklist t fs with blocklist := damage }
        = (⟨some c, fs.backups ++ [(t, c)]⟩, .restored) ∧
      ∀ g : FS, g.backups = [] → restore_latest_backup g = (g, .noBackups) := by
  constructor
  · cases fs with
    | mk bl bk =>
      simp only at hb ht
      subst hb
      simp only [backup_blocklist, restore_latest_backup]
      rw [latestBackup_append_max bk t c ht]
  · intro g hg
    cases g with
    | mk bl bk =>
      simp only at hg
      subst hg
      rfl

/-- Witness for C8: one old snapshot, a fresh backup, live file deleted. -/
theorem backup_restore_w :
    restore_latest_backup
        { backup_blocklist 2 ⟨some (str "ab\n"), [(1, str "old\n")]⟩ with
            blocklist := none }
      = (⟨some (str "ab\n"), [(1, str "old\n"), (2, str "ab\n")]⟩,
          .restored) :=
  (backup_restore ⟨some (str "ab\n"), [(1, str "old\n")]⟩ (str "ab\n") 2 none
    rfl (by decide)).1

/-! ### Parser lemmas -/

theorem dropWhile_append_all {p : Nat → Bool} :
    ∀ (ws l : Str), (∀ c ∈ ws, p c = true) →
      (ws ++ l).dropWhile p = l.dropWhile p
  | [], _, _ => rfl
  | c :: ws, l, h => by
    rw [List.cons_append, List.dropWhile_cons, h c (by simp), if_pos rfl]
    exact dropWhile_append_all ws l fun d hd => h d (by simp [hd])

theorem dropWhile_append_stop {p : Nat → Bool} :
    ∀ (u z : Str), u.dropWhile p ≠ [] →
      (u ++ z).dropWhile p = u.dropWhile p ++ z
  | [], _, h => absurd rfl h
  | c :: u, z, h => by
    by_cases hc : p c = true
    · rw [List.dropWhile_cons, hc] at h ⊢
      rw [if_pos rfl] at h
      rw [List.cons_append, List.dropWhile_cons, hc, if_pos rfl]
      exact dropWhile_append_stop u z h
    · rw [Bool.not_eq_true] at hc
      rw [List.cons_append, List.dropWhile_cons, hc, List.dropWhile_cons, hc]
      simp

theorem takeWhile_append_stop {p : Nat → Bool} :
    ∀ (u z : Str), u.dropWhile p ≠ [] →
      (u ++ z).takeWhile p = u.takeWhile p
  | [], _, h => absurd rfl h
  | c :: u, z, h => by
    by_cases hc : p c = true
    · rw [List.dropWhile_cons, hc] at h
      rw [if_pos rfl] at h
      rw [List.cons_append, List.takeWhile_cons, hc, List.takeWhile_cons, hc]
      simp only [if_pos rfl]
      rw [takeWhile_append_stop u z h]
    · rw [Bool.not_eq_true] at hc
      rw [List.cons_append, List.takeWhile_cons, hc, List.takeWhile_cons, hc]
      simp

theorem dropWhile_head_false {p : Nat → Bool} :
    ∀ {u : Str} {c : Nat} {rest : Str}, u.dropWhile p = c :: rest → p c = false
  | [], _, _, h => by simp at h
  | a :: u, c, rest, h => by
    by_cases ha : p a = true
    · rw [List.dropWhile_cons, ha, if_pos rfl] at h
      exact dropWhile_head_false h
    · rw [Bool.not_eq_true] at ha
      rw [List.dropWhile_cons, ha] at h
      simp only [Bool.false_eq_true, if_false] at h
      cases h
      exact ha

theorem dropPrefixCI_length_le :
    ∀ {pat s r : Str}, dropPrefixCI pat s = some r → r.length ≤ s.length
  | [], s, r, h => by cases h; exact le_rfl
  | _ :: _, [], _, h => by simp [dropPrefixCI] at h
  | p :: ps, c :: cs, r, h => by
    rw [dropPrefixCI] at h
    split_ifs at h
    exact (dropPrefixCI_length_le h).trans (by simp)

theorem dropPrefixCI_length_lt {pat s r : Str} (hp : pat ≠ [])
    (h : dropPrefixCI pat s = some r) : r.length < s.length := by
  match pat, s with
  | [], _ => exact absurd rfl hp
  | _ :: _, [] => simp [dropPrefixCI] at h
  | p :: ps, c :: cs =>
    rw [dropPrefixCI] at h
    split_ifs at h
    exact Nat.lt_succ_of_le (dropPrefixCI_length_le h)

theorem dropPrefixCI_suffix :
    ∀ {pat s r : Str}, dropPrefixCI pat s = some r → r <:+ s
  | [], s, r, h => by cases h; exact List.suffix_rfl
  | _ :: _, [], _, h => by simp [dropPrefixCI] at h
  | p :: ps, c :: cs, r, h => by
    rw [dropPrefixCI] at h
    split_ifs at h
    exact (dropPrefixCI_suffix h).trans (List.suffix_cons c cs)

theorem dropPrefixCI_append_nl :
    ∀ (pat u t : Str), (∀ x ∈ pat, lowerChar x ≠ 10) →
      dropPrefixCI pat (u ++ 10 :: t)
        = Option.map (fun r => r ++ 10 :: t) (dropPrefixCI pat u)
  | [], u, t, _ => rfl
  | p :: ps, [], t, h => by
    rw [List.nil_append, dropPrefixCI, dropPrefixCI]
    have : lowerChar 10 = 10 := by decide
    rw [this, if_neg fun e => h p (by simp) e.symm]
    rfl
  | p :: ps, c :: u, t, h => by
    rw [List.cons_append, dropPrefixCI, dropPrefixCI]
    split_ifs
    · exact dropPrefixCI_append_nl ps u t fun x hx => h x (by simp [hx])
    · rfl

theorem invalid_pat_no_nl : ∀ x ∈ str "INVALID", lowerChar x ≠ 10 := by
  decide

theorem nextLineStart_append (p t : Str) (hp : (10 : Nat) ∉ p) :
    nextLineStart (p ++ 10 :: t) = t := by
  unfold nextLineStart
  have hall : ∀ c ∈ p, (c != 10) = true := by
    intro c hc
    simp only [bne_iff_ne]
    intro e
    exact hp (e ▸ hc)
  rw [dropWhile_append_all p (10 :: t) hall, List.dropWhile_cons]
  norm_num

theorem nextLineStart_cons_nl (t : Str) : nextLineStart (10 :: t) = t := by
  unfold nextLineStart
  rw [List.dropWhile_cons]
  norm_num

theorem nextLineStart_no_nl {s : Str} (h : (10 : Nat) ∉ s) :
    nextLineStart s = [] := by
  unfold nextLineStart
  have hall : ∀ x ∈ s, (x != 10) = true := by
    intro x hx
    simp only [bne_iff_ne]
    intro e
    exact h (e ▸ hx)
  rw [List.dropWhile_eq_nil_iff.mpr hall]
  rfl

theorem nextLineStart_length_le (s : Str) :
    (nextLineStart s).length ≤ s.length := by
  unfold nextLineStart
  calc ((s.dropWhile fun c => c != 10).tail).length
      ≤ (s.dropWhile fun c => c != 10).length := by
        rw [List.length_tail]; omega
    _ ≤ s.length := (List.dropWhile_sublist _).length_le

theorem nextLineStart_length_lt {s : Str} (h : s ≠ []) :
    (nextLineStart s).length < s.length := by
  match s with
  | [] => exact absurd rfl h
  | c :: cs =>
    unfold nextLineStart
    rw [List.length_tail]
    have := (List.dropWhile_sublist (l := c :: cs) (fun c => c != 10)).length_le
    by_cases hd : (c :: cs).dropWhile (fun c => c != 10) = []
    · rw [hd]; simp
    · have : ((c :: cs).dropWhile fun c => c != 10).length ≥ 1 :=
        List.length_pos.mpr hd
      simp only [List.length_cons] at *
      omega

theorem nextLineStart_cons_ne {c : Nat} (hc : c ≠ 10) (cs : Str) :
    nextLineStart (c :: cs) = nextLineStart cs := by
  unfold nextLineStart
  rw [List.dropWhile_cons, if_pos (by simpa using hc)]

theorem matchAt_nil : matchAt [] = none := by decide

theorem captureStage_rest_le {s3 : Str} {p : Str × Str}
    (h : captureStage s3 = some p) : p.2.length ≤ s3.length := by
  cases hd : s3.dropWhile isSpace with
  | nil =>
    cases hr : s3.reverse.dropWhile (fun c => c == 10) with
    | nil => simp [captureStage, hd, hr] at h
    | cons cl tl =>
      simp only [captureStage, hd, hr] at h
      cases h
      calc (s3.reverse.takeWhile fun c => c == 10).length
          ≤ s3.reverse.length := (List.takeWhile_sublist _).length_le
        _ = s3.length := s3.length_reverse
  | cons z zs =>
    simp only [captureStage, hd] at h
    cases h
    calc ((z :: zs).dropWhile fun c => c != 10).length
        ≤ (z :: zs).length := (List.dropWhile_sublist _).length_le
      _ = (s3.dropWhile isSpace).length := by rw [hd]
      _ ≤ s3.length := (List.dropWhile_sublist _).length_le

theorem matchCore_rest_lt {s1 : Str} {p : Str × Str}
    (h : matchCore s1 = some p) : p.2.length < s1.length := by
  cases hpi : dropPrefixCI (str "INVALID") s1 with
  | none => simp [matchCore, hpi] at h
  | some s2 =>
    cases hdw : s2.dropWhile isSpace with
    | nil => simp [matchCore, hpi, hdw] at h
    | cons c s3 =>
      simp only [matchCore, hpi, hdw] at h
      split_ifs at h
      have h1 := captureStage_rest_le h
      have h2 : (c :: s3).length ≤ s2.length := by
        rw [← hdw]; exact (List.dropWhile_sublist _).length_le
      have h3 : s2.length < s1.length :=
        dropPrefixCI_length_lt (by decide) hpi
      simp only [List.length_cons] at h2
      omega

theorem matchAt_rest_lt {s : Str} {p : Str × Str}
    (h : matchAt s = some p) : p.2.length < s.length :=
  (matchCore_rest_lt h).trans_le (List.dropWhile_sublist _).length_le

theorem findInvalidAux_succ (n : Nat) (c : Nat) (cs : Str) :
    findInvalidAux (n + 1) (c :: cs) =
      match matchAt (c :: cs) with
      | some p => p.1 :: findInvalidAux n (nextLineStart p.2)
      | none => findInvalidAux n (nextLineStart (c :: cs)) := rfl

theorem findInvalidAux_congr :
    ∀ n : Nat, ∀ {m : Nat} {s : Str}, s.length < n → s.length < m →
      findInvalidAux n s = findInvalidAux m s := by
  intro n
  induction n with
  | zero => exact fun h _ => absurd h (Nat.not_lt_zero _)
  | succ n ih =>
    intro m s hn hm
    match m, s with
    | 0, s => exact absurd hm (Nat.not_lt_zero _)
    | m + 1, [] => rfl
    | m + 1, c :: cs =>
      rw [findInvalidAux_succ, findInvalidAux_succ]
      cases hma : matchAt (c :: cs) with
      | some p =>
        simp only [hma]
        congr 1
        have hb1 := matchAt_rest_lt hma
        have hb2 := nextLineStart_length_le p.2
        exact ih (by omega) (by omega)
      | none =>
        simp only [hma]
        have hb := nextLineStart_length_lt (s := c :: cs) (by simp)
        exact ih (by omega) (by omega)

theorem findInvalid_none {s : Str} (h : matchAt s = none) :
    findInvalid s = findInvalid (nextLineStart s) := by
  match s with
  | [] => rfl
  | c :: cs =>
    unfold findInvalid
    rw [List.length_cons, findInvalidAux_succ]
    simp only [h]
    have hb := nextLineStart_length_lt (s := c :: cs) (by simp)
    simp only [List.length_cons] at hb
    exact findInvalidAux_congr _ (by omega) (by omega)

theorem findInvalid_some {s : Str} {p : Str × Str} (h : matchAt s = some p) :
    findInvalid s = p.1 :: findInvalid (nextLineStart p.2) := by
  match s with
  | [] => rw [matchAt_nil] at h; cases h
  | c :: cs =>
    unfold findInvalid
    rw [List.length_cons, findInvalidAux_succ]
    simp only [h]
    congr 1
    have hb1 := matchAt_rest_lt h
    have hb2 := nextLineStart_length_le p.2
    simp only [List.length_cons] at hb1
    exact findInvalidAux_congr _ (by omega) (by omega)

theorem findInvalid_ws_prepend {ws : Str} (hws : WsOk ws) (t : Str) :
    findInvalid (ws ++ t) = findInvalid t := by
  have hsp : ∀ c ∈ ws, isSpace c = true := fun c hc => (hws c hc).1
  have hma : matchAt (ws ++ t) = matchAt t := by
    unfold matchAt
    rw [dropWhile_append_all ws t hsp]
  cases hmt : matchAt t with
  | some p => rw [findInvalid_some (hma.trans hmt), findInvalid_some hmt]
  | none =>
    rw [findInvalid_none (hma.trans hmt), findInvalid_none hmt]
    congr 1
    unfold nextLineStart
    rw [dropWhile_append_all ws t fun c hc => by
      simp only [bne_iff_ne]
      exact (hws c hc).2]

theorem findInvalid_blank_line {p : Str} (hsp : ∀ c ∈ p, isSpace c = true)
    (hnl : (10 : Nat) ∉ p) (t : Str) :
    findInvalid (p ++ 10 :: t) = findInvalid t := by
  have hma : matchAt (p ++ 10 :: t) = matchAt t := by
    unfold matchAt
    rw [dropWhile_append_all p (10 :: t) hsp, List.dropWhile_cons,
      if_pos (by decide)]
  cases hmt : matchAt t with
  | some q => rw [findInvalid_some (hma.trans hmt), findInvalid_some hmt]
  | none =>
    rw [findInvalid_none (hma.trans hmt), nextLineStart_append p t hnl]

theorem matchAt_none_of_marker {u : Str} (h : specMarker u = false) :
    matchAt u = none := by
  unfold matchAt matchCore
  cases hpi : dropPrefixCI (str "INVALID") (u.dropWhile isSpace) with
  | none => simp
  | some r =>
    simp only [specMarker, hpi] at h
    cases hdw : r.dropWhile isSpace with
    | nil => simp [hdw]
    | cons c s3 =>
      rw [hdw] at h
      have hc : c ≠ 58 := by simpa using h
      simp [hdw, hc]

theorem mem_lineStartsAux_suffix :
    ∀ {s u : Str}, u ∈ lineStartsAux s → u <:+ s := by
  intro s
  induction s with
  | nil => intro u hu; simp [lineStartsAux] at hu
  | cons c cs ih =>
    intro u hu
    unfold lineStartsAux at hu
    split_ifs at hu with hc
    · rcases List.mem_cons.mp hu with h | h
      · rw [h]; exact List.suffix_cons c cs
      · exact (ih h).trans (List.suffix_cons c cs)
    · exact (ih hu).trans (List.suffix_cons c cs)

theorem mem_lineStarts_suffix {s u : Str} (hu : u ∈ lineStarts s) :
    u <:+ s := by
  rcases List.mem_cons.mp hu with h | h
  · subst h; exact List.suffix_rfl
  · exact mem_lineStartsAux_suffix h

theorem lineStarts_nextLineStart :
    ∀ (s : Str) {u : Str}, u ∈ lineStarts (nextLineStart s) →
      u ∈ lineStartsAux s ∨ u = [] := by
  intro s
  induction s with
  | nil =>
    intro u hu
    right
    have : nextLineStart ([] : Str) = [] := rfl
    rw [this] at hu
    simpa [lineStarts, lineStartsAux] using hu
  | cons c cs ih =>
    intro u hu
    by_cases hc : c = 10
    · subst hc
      rw [nextLineStart_cons_nl] at hu
      left
      unfold lineStartsAux
      rw [if_pos rfl]
      exact hu
    · rw [nextLineStart_cons_ne hc] at hu
      rcases ih hu with h | h
      · left
        unfold lineStartsAux
        rw [if_neg hc]
        exact h
      · right; exact h

theorem findInvalid_no_marker_aux :
    ∀ (n : Nat) (s : Str), s.length ≤ n →
      (∀ u ∈ lineStarts s, specMarker u = false) → findInvalid s = []
  | _, [], _, _ => rfl
  | 0, c :: cs, hlen, _ => by simp at hlen
  | n + 1, c :: cs, hlen, h => by
    have hm : matchAt (c :: cs) = none :=
      matchAt_none_of_marker (h _ (List.mem_cons_self _ _))
    rw [findInvalid_none hm]
    have hb := nextLineStart_length_lt (s := c :: cs) (by simp)
    apply findInvalid_no_marker_aux n (nextLineStart (c :: cs))
      (by simp only [List.length_cons] at hlen hb ⊢; omega)
    intro u hu
    rcases lineStarts_nextLineStart (c :: cs) hu with h1 | h1
    · exact h u (List.mem_cons_of_mem _ h1)
    · subst h1; decide

theorem containsCI_suffix_none :
    ∀ {l : Str} {pat u : Str}, containsCI pat l = false → u <:+ l →
      dropPrefixCI pat u = none := by
  intro l
  induction l with
  | nil =>
    intro pat u hc hu
    rw [List.suffix_nil.mp hu]
    unfold containsCI at hc
    exact Option.not_isSome_iff_eq_none.mp (by simp [hc])
  | cons c cs ih =>
    intro pat u hc hu
    unfold containsCI at hc
    rw [Bool.or_eq_false_iff] at hc
    rcases List.suffix_cons_iff.mp hu with h | h
    · subst h
      exact Option.not_isSome_iff_eq_none.mp (by simp [hc.1])
    · exact ih hc.2 h

theorem findInvalid_skip_line {l : Str} (hnl : (10 : Nat) ∉ l)
    (hci : containsCI (str "INVALID") l = false) (t : Str) :
    findInvalid (l ++ 10 :: t) = findInvalid t := by
  by_cases hws : l.dropWhile isSpace = []
  · exact findInvalid_blank_line (List.dropWhile_eq_nil_iff.mp hws) hnl t
  · have hmn : matchAt (l ++ 10 :: t) = none := by
      unfold matchAt matchCore
      rw [dropWhile_append_stop l (10 :: t) hws,
        dropPrefixCI_append_nl (str "INVALID") (l.dropWhile isSpace) t
          invalid_pat_no_nl,
        containsCI_suffix_none hci (List.dropWhile_suffix _)]
      rfl
    rw [findInvalid_none hmn, nextLineStart_append l t hnl]

theorem detect_congr {t1 t2 : Str} (h : findInvalid t1 = findInvalid t2)
    (existing : List Str) :
    detect_potential_invalids t1 existing
      = detect_potential_invalids t2 existing := by
  unfold detect_potential_invalids
  rw [h]

theorem detect_nil_lines {text : Str} (h : findInvalid text = [])
    (existing : List Str) : detect_potential_invalids text existing = [] := by
  unfold detect_potential_invalids
  rw [h]
  rfl

/-! ### Claim theorems: response parser -/

/-- Claim C5 counterexample: in the text joining the lines `INVALID` and
`: abc` with a newline, no line matches the marker — `INVALID` alone lacks
the `:`, and `: abc` lacks the literal — yet the parser returns `["abc"]`:
the `\s*` of the pattern matches the newline, so the marker is found across
the line boundary. -/
theorem detect_no_marker_cex :
    (∀ line ∈ splitLines (str "INVALID\n: abc"), specMarker line = false) ∧
      detect_potential_invalids (str "INVALID\n: abc") [] = [str "abc"] := by
  decide

/-- Claim C5 amended: for every Latin-1 response text in which no line
start begins — after optional whitespace, which may span line boundaries —
with `INVALID` case-insensitively followed by optional whitespace and `:`,
the parser returns the empty sequence, whatever the existing blocklist.
(The Latin-1 bound marks the range on which the character classes are
modelled exactly.) -/
theorem detect_no_marker (text : Str) (existing : List Str)
    (hscope : ∀ c ∈ text, c < 256)
    (h : ∀ u ∈ lineStarts text, specMarker u = false) :
    detect_potential_invalids text existing = [] := by
  exact detect_nil_lines (findInvalid_no_marker_aux text.length text le_rfl h)
    existing

/-- Witness for the amended C5 at a concrete marker-free response. -/
theorem detect_no_marker_w :
    detect_potential_invalids (str "hello\nworld") [str "aa"] = [] :=
  detect_no_marker _ _ (by decide) (by decide)

/-- Claim C2 counterexample: on the spec's test vector the parser does not
return `["bar", "foo"]` — `the` is not in the stopword set, so the actual
result is `["bar", "foo", "the"]`. -/
theorem detect_vector_cex :
    detect_potential_invalids testResponse [] ≠ [str "bar", str "foo"] ∧
      detect_potential_invalids testResponse []
        = [str "bar", str "foo", str "the"] := by decide

/-- Claim C2 amended: for a response whose last line is
`INVALID: Foo, bar1, the, none`, preceded by newline-free Latin-1 lines
none of which contains the letters `INVALID` in any case, and the empty
existing blocklist, the parser returns exactly `["bar", "foo", "the"]`. -/
theorem detect_vector (pre : List Str)
    (hnl : ∀ l ∈ pre, (10 : Nat) ∉ l)
    (hci : ∀ l ∈ pre, containsCI (str "INVALID") l = false)
    (hscope : ∀ l ∈ pre, ∀ c ∈ l, c < 256) :
    detect_potential_invalids
        (joinWith 10 (pre ++ [str "INVALID: Foo, bar1, the, none", []])) []
      = [str "bar", str "foo", str "the"] := by
  induction pre with
  | nil => decide
  | cons l pre ih =>
    have h1 : joinWith 10 ((l :: pre) ++ [str "INVALID: Foo, bar1, the, none", []])
        = l ++ 10 :: joinWith 10 (pre ++ [str "INVALID: Foo, bar1, the, none", []]) := by
      cases pre <;> rfl
    rw [h1, detect_congr (findInvalid_skip_line (hnl l (by simp))
      (hci l (by simp)) _) []]
    exact ih (fun v hv => hnl v (List.mem_cons_of_mem _ hv))
      (fun v hv => hci v (List.mem_cons_of_mem _ hv))
      (fun v hv => hscope v (List.mem_cons_of_mem _ hv))

/-- Witness for the amended C2 with one preceding prose line. -/
theorem detect_vector_w :
    detect_potential_invalids
        (joinWith 10
          ([str "Solved!"] ++ [str "INVALID: Foo, bar1, the, none", []])) []
      = [str "bar", str "foo", str "the"] :=
  detect_vector [str "Solved!"] (by decide) (by decide) (by decide)

/-- Claim C6 counterexample: with existing blocklist `{"foo"}` the spec's
test vector does not yield `["bar"]` — `the` survives, the result is
`["bar", "the"]`. -/
theorem detect_exclusion_cex :
    detect_potential_invalids testResponse [str "foo"] ≠ [str "bar"] ∧
      detect_potential_invalids testResponse [str "foo"]
        = [str "bar", str "the"] := by decide

/-- Claim C6 amended: on the test vector with existing blocklist `{"foo"}`
the parser excludes `foo` and yields exactly `["bar", "the"]`; in general no
token present in the supplied existing blocklist appears in the result. -/
theorem detect_exclusion :
    detect_potential_invalids testResponse [str "foo"] = [str "bar", str "the"]
      ∧ ∀ (text : Str) (existing : List Str) (w : Str),
          w ∈ detect_potential_invalids text existing → w ∉ existing := by
  refine ⟨by decide, ?_⟩
  intro text existing w hw
  simp only [detect_potential_invalids, detectFrom, tokenFilter] at hw
  split_ifs at hw
  · exact absurd hw (by simp)
  · have hw2 := List.mem_dedup.mp ((List.mem_insertionSort wordLe).mp hw)
    obtain ⟨tok, -, hf⟩ := List.mem_filterMap.mp hw2
    simp only [tokenFilter] at hf
    split_ifs at hf with hT1 hT2 hT3 hT4
    injection hf with hf2
    exact hf2 ▸ hT4

/-- Witness for the amended C6: the theorem applied at the test vector shows
`the` is not in the existing blocklist it came from. -/
theorem detect_exclusion_w : str "the" ∉ [str "foo"] :=
  detect_exclusion.2 testResponse [str "foo"] (str "the") (by decide)

/-! ### Delimiter-only captures contribute no tokens -/

theorem splitTokens_ne_nil : ∀ s : Str, splitTokens s ≠ []
  | [] => by simp [splitTokens]
  | [c] => by unfold splitTokens; split_ifs <;> simp
  | c :: c2 :: cs => by
    unfold splitTokens
    split_ifs
    · exact splitTokens_ne_nil (c2 :: cs)
    · simp
    · cases h : splitTokens (c2 :: cs) with
      | nil => exact absurd h (splitTokens_ne_nil (c2 :: cs))
      | cons t ts => simp

theorem splitTokens_append_one {d : Nat} (hd : isTokenDelim d = true) :
    ∀ y : Str, splitTokens (y ++ [d]) = splitTokens y ∨
      splitTokens (y ++ [d]) = splitTokens y ++ [[]]
  | [] => by
    right
    rw [List.nil_append]
    unfold splitTokens
    rw [if_pos hd]
    rfl
  | [a] => by
    have hsd : splitTokens [d] = [[], []] := by
      unfold splitTokens
      rw [if_pos hd]
    by_cases ha : isTokenDelim a = true
    · left
      show splitTokens (a :: [d]) = _
      unfold splitTokens
      rw [if_pos ha, if_pos hd, hsd, if_pos ha]
    · right
      show splitTokens (a :: [d]) = _
      unfold splitTokens
      rw [if_neg ha, hsd, if_neg ha]
      rfl
  | a :: b :: y => by
    rcases splitTokens_append_one hd (b :: y) with h | h
    · left
      simp only [List.cons_append] at h ⊢
      unfold splitTokens
      rw [h]
    · right
      simp only [List.cons_append] at h ⊢
      unfold splitTokens
      rw [h]
      by_cases ha : isTokenDelim a = true
      · by_cases hb : isTokenDelim b = true
        · simp [ha, hb]
        · simp [ha, hb]
      · simp only [ha, Bool.false_eq_true, if_false]
        cases hs : splitTokens (b :: y) with
        | nil => exact absurd hs (splitTokens_ne_nil (b :: y))
        | cons t ts => simp

theorem filterMapSplit_append_one {f : Str → Option Str} (hf : f [] = none)
    {d : Nat} (hd : isTokenDelim d = true) (y : Str) :
    (splitTokens (y ++ [d])).filterMap f = (splitTokens y).filterMap f := by
  rcases splitTokens_append_one hd y with h | h
  · rw [h]
  · rw [h, List.filterMap_append]
    simp [hf]

theorem filterMapSplit_append_delims {f : Str → Option Str} (hf : f [] = none)
    (y : Str) : ∀ D : Str, (∀ d ∈ D, isTokenDelim d = true) →
      (splitTokens (y ++ D)).filterMap f = (splitTokens y).filterMap f := by
  intro D
  induction D using List.reverseRecOn with
  | nil => intro _; simp
  | append_singleton D d ih =>
    intro hD
    rw [← List.append_assoc,
      filterMapSplit_append_one hf (hD d (by simp)) (y ++ D)]
    exact ih fun v hv => hD v (by simp [hv])

theorem splitTokens_all_delim :
    ∀ x : Str, (∀ c ∈ x, isTokenDelim c = true) →
      ∀ t ∈ splitTokens x, t = []
  | [], _, t, ht => by simpa [splitTokens] using ht
  | [c], h, t, ht => by
    unfold splitTokens at ht
    rw [if_pos (h c (by simp))] at ht
    rcases List.mem_cons.mp ht with h1 | h1
    · exact h1
    · simpa using h1
  | c :: c2 :: cs, h, t, ht => by
    unfold splitTokens at ht
    rw [if_pos (h c (by simp)), if_pos (h c2 (by simp))] at ht
    exact splitTokens_all_delim (c2 :: cs) (fun v hv => h v (by simp [hv])) t ht

theorem filterMapSplit_all_delim {f : Str → Option Str} (hf : f [] = none)
    (x : Str) (hx : ∀ c ∈ x, isTokenDelim c = true) :
    (splitTokens x).filterMap f = [] :=
  List.filterMap_eq_nil_iff.mpr fun t ht => by
    rw [splitTokens_all_delim x hx t ht]
    exact hf

theorem joinWith_append_single (sep : Nat) :
    ∀ (L : List Str) (x : Str), L ≠ [] →
      joinWith sep (L ++ [x]) = joinWith sep L ++ sep :: x
  | [], _, h => absurd rfl h
  | [l], x, _ => rfl
  | l :: l2 :: L, x, _ => by
    have ih := joinWith_append_single sep (l2 :: L) x (by simp)
    simp only [List.cons_append] at ih ⊢
    unfold joinWith
    rw [ih]
    simp

theorem detectFrom_eq (L : List Str) (hL : L ≠ []) (existing : List Str) :
    detectFrom L existing
      = sortWords (((splitTokens (joinWith 32 L)).filterMap
          (tokenFilter existing)).dedup) := by
  unfold detectFrom
  rw [if_neg hL]

theorem detectFrom_append_one (existing : List Str) (L : List Str) (x : Str)
    (hx : ∀ c ∈ x, isTokenDelim c = true) :
    detectFrom (L ++ [x]) existing = detectFrom L existing := by
  have hf : tokenFilter existing [] = none := rfl
  cases L with
  | nil =>
    rw [List.nil_append, detectFrom_eq [x] (by simp) existing]
    have h1 : joinWith 32 [x] = x := rfl
    rw [h1, filterMapSplit_all_delim hf x hx]
    rfl
  | cons l0 L =>
    rw [detectFrom_eq ((l0 :: L) ++ [x]) (by simp) existing,
      detectFrom_eq (l0 :: L) (by simp) existing,
      joinWith_append_single 32 (l0 :: L) x (by simp),
      filterMapSplit_append_delims hf (joinWith 32 (l0 :: L)) (32 :: x)
        (fun d hd => by
          rcases List.mem_cons.mp hd with h | h
          · rw [h]; decide
          · exact hx d h)]

/-! ### Simulation of the scan on a text with and without inserted
indentation -/

theorem endNl_suffix {γ θ : Str} (hg : EndNl γ) (hs : θ <:+ γ) : EndNl θ := by
  cases θ with
  | nil => exact Or.inl rfl
  | cons c cs =>
    right
    obtain ⟨u, hu⟩ := hs
    rcases hg with hg | hg
    · rw [hg] at hu
      exact absurd hu.symm (by simp)
    · rw [← hu, List.getLast?_append_of_ne_nil u (by simp)] at hg
      exact hg

theorem endNl_nl_mem {γ : Str} (hne : γ ≠ []) (hg : EndNl γ) :
    (10 : Nat) ∈ γ := by
  rcases hg with hg | hg
  · exact absurd hg hne
  · exact List.mem_of_getLast?_eq_some hg

theorem endNl_decompose {γ : Str} (hne : γ ≠ []) (hg : EndNl γ) :
    ∃ p θ, γ = p ++ 10 :: θ ∧ (10 : Nat) ∉ p ∧ EndNl θ := by
  have h10 : (10 : Nat) ∈ γ := endNl_nl_mem hne hg
  have hd : γ.dropWhile (fun c => c != 10) ≠ [] := by
    intro h
    have := List.dropWhile_eq_nil_iff.mp h 10 h10
    simp at this
  cases hdd : γ.dropWhile (fun c => c != 10) with
  | nil => exact absurd hdd hd
  | cons c θ =>
    have hc : c = 10 := by
      have := dropWhile_head_false hdd
      simpa using this
    subst hc
    refine ⟨γ.takeWhile (fun c => c != 10), θ, ?_, ?_, ?_⟩
    · rw [← hdd, List.takeWhile_append_dropWhile]
    · intro hm
      have := List.mem_takeWhile_imp hm
      simp at this
    · refine endNl_suffix hg
        (List.IsSuffix.trans ?_ (List.dropWhile_suffix (fun c => c != 10)))
      rw [hdd]
      exact ⟨[10], rfl⟩

theorem matchCore_colon (zs : Str) : matchCore (58 :: zs) = none := by
  have h : dropPrefixCI (str "INVALID") (58 :: zs) = none := by
    rw [show str "INVALID" = 73 :: str "NVALID" from rfl, dropPrefixCI,
      if_neg (by decide)]
  unfold matchCore
  rw [h]

theorem findInvalid_sp58 :
    ∀ (n : Nat) (s : Str), s.length ≤ n →
      (∀ c ∈ s, isSpace c = true ∨ c = 58) → findInvalid s = []
  | _, [], _, _ => rfl
  | 0, c :: cs, hlen, _ => by simp at hlen
  | n + 1, c :: cs, hlen, h => by
    have hm : matchAt (c :: cs) = none := by
      unfold matchAt
      cases hdw : (c :: cs).dropWhile isSpace with
      | nil => rfl
      | cons z zs =>
        have hz : z ∈ c :: cs :=
          (List.dropWhile_suffix isSpace).subset (hdw ▸ List.mem_cons_self z zs)
        have hzs : isSpace z = false := dropWhile_head_false hdw
        rcases h z hz with h1 | h1
        · rw [h1] at hzs; cases hzs
        · rw [h1]
          exact matchCore_colon zs
    rw [findInvalid_none hm]
    have hsub : nextLineStart (c :: cs) <:+ c :: cs :=
      List.IsSuffix.trans (List.tail_suffix _) (List.dropWhile_suffix _)
    have hb := nextLineStart_length_lt (s := c :: cs) (by simp)
    exact findInvalid_sp58 n (nextLineStart (c :: cs))
      (by simp only [List.length_cons] at hlen hb ⊢; omega)
      fun x hx => h x (hsub.subset hx)

theorem capture_all_space {s : Str} (h : ∀ c ∈ s, isSpace c = true) :
    captureStage s = none ∨
      ∃ cl r, isSpace cl = true ∧ (∀ x ∈ r, x = 10) ∧
        captureStage s = some ([cl], r) := by
  have hds : s.dropWhile isSpace = [] := List.dropWhile_eq_nil_iff.mpr h
  cases hr : s.reverse.dropWhile (fun c => c == 10) with
  | nil =>
    left
    simp only [captureStage, hds, hr]
  | cons cl tl =>
    right
    refine ⟨cl, s.reverse.takeWhile (fun c => c == 10), ?_, ?_, ?_⟩
    · have hm : cl ∈ s.reverse :=
        (List.dropWhile_suffix _).subset (hr ▸ List.mem_cons_self cl tl)
      exact h cl (List.mem_reverse.mp hm)
    · intro x hx
      have := List.mem_takeWhile_imp hx
      simpa using this
    · simp only [captureStage, hds, hr]

theorem capPair {ws : Str} (hws : WsOk ws) (μ β : Str) (hμ : EndNl μ) :
    (∃ cap τ, EndNl τ ∧ τ.length < μ.length ∧
        captureStage (μ ++ (ws ++ β)) = some (cap, 10 :: (τ ++ (ws ++ β))) ∧
        captureStage (μ ++ β) = some (cap, 10 :: (τ ++ β))) ∨
      captureStage (μ ++ (ws ++ β)) = captureStage (μ ++ β) ∨
      ((∀ c ∈ μ, isSpace c = true) ∧ (∀ c ∈ β, isSpace c = true)) := by
  by_cases hμs : μ.dropWhile isSpace = []
  · have hμsp : ∀ c ∈ μ, isSpace c = true := List.dropWhile_eq_nil_iff.mp hμs
    have hwsp : ∀ c ∈ ws, isSpace c = true := fun c hc => (hws c hc).1
    have hA : (μ ++ (ws ++ β)).dropWhile isSpace = β.dropWhile isSpace := by
      rw [dropWhile_append_all μ _ hμsp, dropWhile_append_all ws _ hwsp]
    have hB : (μ ++ β).dropWhile isSpace = β.dropWhile isSpace :=
      dropWhile_append_all μ β hμsp
    cases hζ : β.dropWhile isSpace with
    | nil => exact Or.inr (Or.inr ⟨hμsp, List.dropWhile_eq_nil_iff.mp hζ⟩)
    | cons z zs =>
      refine Or.inr (Or.inl ?_)
      simp only [captureStage, hA, hB, hζ]
  · have hμne : μ ≠ [] := fun e => hμs (by simp [e])
    have hμ₂suf : μ.dropWhile isSpace <:+ μ := List.dropWhile_suffix isSpace
    have hμ₂last : (μ.dropWhile isSpace).getLast? = some 10 :=
      (endNl_suffix hμ hμ₂suf).resolve_left hμs
    have h10 : (10 : Nat) ∈ μ.dropWhile isSpace :=
      List.mem_of_getLast?_eq_some hμ₂last
    have hdne : (μ.dropWhile isSpace).dropWhile (fun c => c != 10) ≠ [] := by
      intro h
      have := List.dropWhile_eq_nil_iff.mp h 10 h10
      simp at this
    cases hdd : (μ.dropWhile isSpace).dropWhile (fun c => c != 10) with
    | nil => exact absurd hdd hdne
    | cons c τ =>
      have hc : c = 10 := by
        have := dropWhile_head_false hdd
        simpa using this
      subst hc
      left
      cases hμ₂c : μ.dropWhile isSpace with
      | nil => exact absurd hμ₂c hμs
      | cons z μt =>
        have hzA : z :: (μt ++ (ws ++ β))
            = (μ.dropWhile isSpace) ++ (ws ++ β) := by
          rw [hμ₂c, List.cons_append]
        have hzB : z :: (μt ++ β) = (μ.dropWhile isSpace) ++ β := by
          rw [hμ₂c, List.cons_append]
        have hdwA : (μ ++ (ws ++ β)).dropWhile isSpace
            = z :: (μt ++ (ws ++ β)) := by
          rw [dropWhile_append_stop μ (ws ++ β) hμs, hμ₂c, List.cons_append]
        have hdwB : (μ ++ β).dropWhile isSpace = z :: (μt ++ β) := by
          rw [dropWhile_append_stop μ β hμs, hμ₂c, List.cons_append]
        refine ⟨(μ.dropWhile isSpace).takeWhile (fun c => c != 10), τ,
          ?_, ?_, ?_, ?_⟩
        · refine endNl_suffix hμ (List.IsSuffix.trans ?_ hμ₂suf)
          refine List.IsSuffix.trans ⟨[10], rfl⟩ ?_
          rw [List.singleton_append, ← hdd]
          exact List.dropWhile_suffix (fun c => c != 10)
        · have h1 : (10 :: τ).length ≤ (μ.dropWhile isSpace).length := by
            rw [← hdd]
            exact (List.dropWhile_sublist _).length_le
          have h2 : (μ.dropWhile isSpace).length ≤ μ.length :=
            (List.dropWhile_sublist _).length_le
          simp only [List.length_cons] at h1
          omega
        · simp only [captureStage, hdwA]
          rw [hzA, takeWhile_append_stop _ _ hdne,
            dropWhile_append_stop _ _ hdne, hdd, List.cons_append]
        · simp only [captureStage, hdwB]
          rw [hzB, takeWhile_append_stop _ _ hdne,
            dropWhile_append_stop _ _ hdne, hdd, List.cons_append]

theorem matchCore_prefix_none {p' : Str} (t : Str)
    (hq : dropPrefixCI (str "INVALID") p' = none) :
    matchCore (p' ++ 10 :: t) = none := by
  unfold matchCore
  rw [dropPrefixCI_append_nl (str "INVALID") p' t invalid_pat_no_nl, hq]
  rfl

theorem matchCore_prefix_nil {p' q : Str} (t : Str)
    (hq : dropPrefixCI (str "INVALID") p' = some q)
    (h2 : (q ++ 10 :: t).dropWhile isSpace = []) :
    matchCore (p' ++ 10 :: t) = none := by
  unfold matchCore
  rw [dropPrefixCI_append_nl (str "INVALID") p' t invalid_pat_no_nl, hq]
  show (match (q ++ 10 :: t).dropWhile isSpace with
    | [] => none
    | c :: s3 => if c = 58 then captureStage s3 else none) = none
  rw [h2]

theorem matchCore_prefix_cons {p' q : Str} {c : Nat} {s3 : Str} (t : Str)
    (hq : dropPrefixCI (str "INVALID") p' = some q)
    (h2 : (q ++ 10 :: t).dropWhile isSpace = c :: s3) :
    matchCore (p' ++ 10 :: t) = if c = 58 then captureStage s3 else none := by
  unfold matchCore
  rw [dropPrefixCI_append_nl (str "INVALID") p' t invalid_pat_no_nl, hq]
  show (match (q ++ 10 :: t).dropWhile isSpace with
    | [] => none
    | c :: s3 => if c = 58 then captureStage s3 else none)
      = if c = 58 then captureStage s3 else none
  rw [h2]

theorem matchCore_terminal {p' q s3 : Str} (t : Str)
    (hq : dropPrefixCI (str "INVALID") p' = some q)
    (h2 : (q ++ 10 :: t).dropWhile isSpace = 58 :: s3)
    (hsp : ∀ c ∈ s3, isSpace c = true) :
    matchCore (p' ++ 10 :: t) = none ∨
      ∃ cl r, isSpace cl = true ∧ (∀ x ∈ r, x = 10) ∧
        matchCore (p' ++ 10 :: t) = some ([cl], r) := by
  have e := matchCore_prefix_cons t hq h2
  rw [if_pos rfl] at e
  rcases capture_all_space hsp with h | ⟨cl, r, h1, hr, h3⟩
  · exact Or.inl (e.trans h)
  · exact Or.inr ⟨cl, r, h1, hr, e.trans h3⟩

theorem attemptPair {ws : Str} (hws : WsOk ws) (p' θ β : Str)
    (hθ : EndNl θ) :
    (matchCore (p' ++ 10 :: (θ ++ (ws ++ β))) = none ∧
        matchCore (p' ++ 10 :: (θ ++ β)) = none) ∨
      (∃ pr, matchCore (p' ++ 10 :: (θ ++ (ws ++ β))) = some pr ∧
        matchCore (p' ++ 10 :: (θ ++ β)) = some pr) ∨
      (∃ cap τ, EndNl τ ∧ τ.length < p'.length + θ.length + 1 ∧
        matchCore (p' ++ 10 :: (θ ++ (ws ++ β)))
          = some (cap, 10 :: (τ ++ (ws ++ β))) ∧
        matchCore (p' ++ 10 :: (θ ++ β)) = some (cap, 10 :: (τ ++ β))) ∨
      ((∀ c ∈ θ, isSpace c = true ∨ c = 58) ∧
        (∀ c ∈ β, isSpace c = true) ∧
        (matchCore (p' ++ 10 :: (θ ++ (ws ++ β))) = none ∨
          ∃ cl r, isSpace cl = true ∧ (∀ x ∈ r, x = 10) ∧
            matchCore (p' ++ 10 :: (θ ++ (ws ++ β))) = some ([cl], r)) ∧
        (matchCore (p' ++ 10 :: (θ ++ β)) = none ∨
          ∃ cl r, isSpace cl = true ∧ (∀ x ∈ r, x = 10) ∧
            matchCore (p' ++ 10 :: (θ ++ β)) = some ([cl], r))) := by
  have hwsp : ∀ c ∈ ws, isSpace c = true := fun c hc => (hws c hc).1
  cases hq : dropPrefixCI (str "INVALID") p' with
  | none =>
    exact Or.inl ⟨matchCore_prefix_none _ hq, matchCore_prefix_none _ hq⟩
  | some q =>
    have hqlen : q.length < p'.length := dropPrefixCI_length_lt (by decide) hq
    by_cases hqs : q.dropWhile isSpace = []
    · have hqsp : ∀ c ∈ q, isSpace c = true := List.dropWhile_eq_nil_iff.mp hqs
      have hq10 : ∀ c ∈ q ++ [10], isSpace c = true := by
        intro c hc
        rcases List.mem_append.mp hc with h | h
        · exact hqsp c h
        · simp only [List.mem_singleton] at h
          subst h
          decide
      have hdq : ∀ t : Str,
          (q ++ 10 :: t).dropWhile isSpace = t.dropWhile isSpace := by
        intro t
        have he : q ++ 10 :: t = (q ++ [10]) ++ t := by simp
        rw [he, dropWhile_append_all (q ++ [10]) t hq10]
      by_cases hθs : θ.dropWhile isSpace = []
      · have hθsp : ∀ c ∈ θ, isSpace c = true := List.dropWhile_eq_nil_iff.mp hθs
        have hdA : (θ ++ (ws ++ β)).dropWhile isSpace = β.dropWhile isSpace := by
          rw [dropWhile_append_all θ _ hθsp, dropWhile_append_all ws _ hwsp]
        have hdB : (θ ++ β).dropWhile isSpace = β.dropWhile isSpace :=
          dropWhile_append_all θ β hθsp
        cases hζ : β.dropWhile isSpace with
        | nil =>
          exact Or.inl ⟨matchCore_prefix_nil _ hq (by rw [hdq, hdA, hζ]),
            matchCore_prefix_nil _ hq (by rw [hdq, hdB, hζ])⟩
        | cons z zs =>
          have eA := matchCore_prefix_cons (θ ++ (ws ++ β)) hq
            (by rw [hdq, hdA, hζ])
          have eB := matchCore_prefix_cons (θ ++ β) hq (by rw [hdq, hdB, hζ])
          by_cases hz : z = 58
          · subst hz
            rw [if_pos rfl] at eA eB
            cases hcap : captureStage zs with
            | none => exact Or.inl ⟨eA.trans hcap, eB.trans hcap⟩
            | some pr =>
              exact Or.inr (Or.inl ⟨pr, eA.trans hcap, eB.trans hcap⟩)
          · rw [if_neg hz] at eA eB
            exact Or.inl ⟨eA, eB⟩
      · cases hθc : θ.dropWhile isSpace with
        | nil => exact absurd hθc hθs
        | cons z θt =>
          have hθ₂suf : θ.dropWhile isSpace <:+ θ := List.dropWhile_suffix isSpace
          have hdA : (θ ++ (ws ++ β)).dropWhile isSpace
              = z :: (θt ++ (ws ++ β)) := by
            rw [dropWhile_append_stop θ _ hθs, hθc, List.cons_append]
          have hdB : (θ ++ β).dropWhile isSpace = z :: (θt ++ β) := by
            rw [dropWhile_append_stop θ _ hθs, hθc, List.cons_append]
          by_cases hz : z = 58
          · subst hz
            have eA := matchCore_prefix_cons (θ ++ (ws ++ β)) hq
              (by rw [hdq, hdA])
            have eB := matchCore_prefix_cons (θ ++ β) hq (by rw [hdq, hdB])
            rw [if_pos rfl] at eA eB
            have hθt : EndNl θt := by
              refine endNl_suffix hθ (List.IsSuffix.trans ⟨[58], rfl⟩ ?_)
              rw [List.singleton_append, ← hθc]
              exact hθ₂suf
            have hθtlen : θt.length < θ.length := by
              have h1 := (List.dropWhile_sublist (l := θ) isSpace).length_le
              rw [hθc] at h1
              simp only [List.length_cons] at h1
              omega
            rcases capPair hws θt β hθt with
              ⟨cap, τ, hτnl, hτlen, cA, cB⟩ | hEq | ⟨hμsp, hβsp⟩
            · exact Or.inr (Or.inr (Or.inl ⟨cap, τ, hτnl, by omega,
                eA.trans cA, eB.trans cB⟩))
            · cases hcv : captureStage (θt ++ β) with
              | none => exact Or.inl ⟨eA.trans (hEq.trans hcv), eB.trans hcv⟩
              | some pr =>
                exact Or.inr (Or.inl ⟨pr, eA.trans (hEq.trans hcv),
                  eB.trans hcv⟩)
            · have h58 : ∀ c ∈ θ, isSpace c = true ∨ c = 58 := by
                intro c hc
                rw [← List.takeWhile_append_dropWhile isSpace θ] at hc
                rcases List.mem_append.mp hc with h | h
                · exact Or.inl (List.mem_takeWhile_imp h)
                · rw [hθc] at h
                  rcases List.mem_cons.mp h with h | h
                  · exact Or.inr h
                  · exact Or.inl (hμsp c h)
              have hspA : ∀ c ∈ θt ++ (ws ++ β), isSpace c = true := by
                intro c hc
                rcases List.mem_append.mp hc with h | h
                · exact hμsp c h
                · rcases List.mem_append.mp h with h | h
                  · exact hwsp c h
                  · exact hβsp c h
              have hspB : ∀ c ∈ θt ++ β, isSpace c = true := by
                intro c hc
                rcases List.mem_append.mp hc with h | h
                · exact hμsp c h
                · exact hβsp c h
              exact Or.inr (Or.inr (Or.inr ⟨h58, hβsp,
                matchCore_terminal (θ ++ (ws ++ β)) hq (by rw [hdq, hdA]) hspA,
                matchCore_terminal (θ ++ β) hq (by rw [hdq, hdB]) hspB⟩))
          · have eA := matchCore_prefix_cons (θ ++ (ws ++ β)) hq
              (by rw [hdq, hdA])
            have eB := matchCore_prefix_cons (θ ++ β) hq (by rw [hdq, hdB])
            rw [if_neg hz] at eA eB
            exact Or.inl ⟨eA, eB⟩
    · cases hqc : q.dropWhile isSpace with
      | nil => exact absurd hqc hqs
      | cons z qt =>
        have hqtlen : qt.length + 1 ≤ q.length := by
          have h1 := (List.dropWhile_sublist (l := q) isSpace).length_le
          rw [hqc] at h1
          simp only [List.length_cons] at h1
          omega
        have hdA : (q ++ 10 :: (θ ++ (ws ++ β))).dropWhile isSpace
            = z :: (qt ++ 10 :: (θ ++ (ws ++ β))) := by
          rw [dropWhile_append_stop q _ hqs, hqc, List.cons_append]
        have hdB : (q ++ 10 :: (θ ++ β)).dropWhile isSpace
            = z :: (qt ++ 10 :: (θ ++ β)) := by
          rw [dropWhile_append_stop q _ hqs, hqc, List.cons_append]
        by_cases hz : z = 58
        · subst hz
          have eA := matchCore_prefix_cons (θ ++ (ws ++ β)) hq hdA
          have eB := matchCore_prefix_cons (θ ++ β) hq hdB
          rw [if_pos rfl] at eA eB
          rw [show qt ++ 10 :: (θ ++ (ws ++ β))
            = (qt ++ 10 :: θ) ++ (ws ++ β) from by simp] at eA
          rw [show qt ++ 10 :: (θ ++ β) = (qt ++ 10 :: θ) ++ β from by simp]
            at eB
          have hμnl : EndNl (qt ++ 10 :: θ) := by
            right
            rw [List.getLast?_append_of_ne_nil qt (by simp)]
            cases θ with
            | nil => rfl
            | cons a as =>
              rw [show (10 :: (a :: as) : Str) = [10] ++ (a :: as) from rfl,
                List.getLast?_append_of_ne_nil [10] (by simp)]
              exact hθ.resolve_left (by simp)
          rcases capPair hws (qt ++ 10 :: θ) β hμnl with
            ⟨cap, τ, hτnl, hτlen, cA, cB⟩ | hEq | ⟨hμsp, hβsp⟩
          · have hτb : τ.length < p'.length + θ.length + 1 := by
              rw [List.length_append, List.length_cons] at hτlen
              omega
            exact Or.inr (Or.inr (Or.inl ⟨cap, τ, hτnl, hτb,
              eA.trans cA, eB.trans cB⟩))
          · cases hcv : captureStage ((qt ++ 10 :: θ) ++ β) with
            | none => exact Or.inl ⟨eA.trans (hEq.trans hcv), eB.trans hcv⟩
            | some pr =>
              exact Or.inr (Or.inl ⟨pr, eA.trans (hEq.trans hcv),
                eB.trans hcv⟩)
          · have hθsp : ∀ c ∈ θ, isSpace c = true := fun c hc =>
              hμsp c (List.mem_append.mpr (Or.inr (List.mem_cons_of_mem 10 hc)))
            have hspA : ∀ c ∈ qt ++ 10 :: (θ ++ (ws ++ β)),
                isSpace c = true := by
              intro c hc
              rcases List.mem_append.mp hc with h | h
              · exact hμsp c (List.mem_append.mpr (Or.inl h))
              · rcases List.mem_cons.mp h with h | h
                · subst h; decide
                · rcases List.mem_append.mp h with h | h
                  · exact hθsp c h
                  · rcases List.mem_append.mp h with h | h
                    · exact hwsp c h
                    · exact hβsp c h
            have hspB : ∀ c ∈ qt ++ 10 :: (θ ++ β), isSpace c = true := by
              intro c hc
              rcases List.mem_append.mp hc with h | h
              · exact hμsp c (List.mem_append.mpr (Or.inl h))
              · rcases List.mem_cons.mp h with h | h
                · subst h; decide
                · rcases List.mem_append.mp h with h | h
                  · exact hθsp c h
                  · exact hβsp c h
            exact Or.inr (Or.inr (Or.inr ⟨fun c hc => Or.inl (hθsp c hc), hβsp,
              matchCore_terminal (θ ++ (ws ++ β)) hq hdA hspA,
              matchCore_terminal (θ ++ β) hq hdB hspB⟩))
        · have eA := matchCore_prefix_cons (θ ++ (ws ++ β)) hq hdA
          have eB := matchCore_prefix_cons (θ ++ β) hq hdB
          rw [if_neg hz] at eA eB
          exact Or.inl ⟨eA, eB⟩

theorem findPair {ws : Str} (hws : WsOk ws) :
    ∀ n : Nat, ∀ γ : Str, γ.length ≤ n → EndNl γ → ∀ β : Str,
      ∃ X EA EB : List Str, AllDelim EA ∧ AllDelim EB ∧
        findInvalid (γ ++ (ws ++ β)) = X ++ EA ∧
        findInvalid (γ ++ β) = X ++ EB := by
  intro n
  induction n with
  | zero =>
    intro γ hlen _ β
    obtain rfl : γ = [] := List.length_eq_zero.mp (Nat.le_zero.mp hlen)
    exact ⟨findInvalid β, [], [], fun x hx => absurd hx (List.not_mem_nil x),
      fun x hx => absurd hx (List.not_mem_nil x),
      by rw [List.nil_append, findInvalid_ws_prepend hws, List.append_nil],
      by rw [List.nil_append, List.append_nil]⟩
  | succ n ih =>
    intro γ hlen hγ β
    rcases eq_or_ne γ [] with rfl | hne
    · exact ⟨findInvalid β, [], [], fun x hx => absurd hx (List.not_mem_nil x),
        fun x hx => absurd hx (List.not_mem_nil x),
        by rw [List.nil_append, findInvalid_ws_prepend hws, List.append_nil],
        by rw [List.nil_append, List.append_nil]⟩
    · obtain ⟨p, θ, hγeq, hp10, hθnl⟩ := endNl_decompose hne hγ
      subst hγeq
      have hθlen : θ.length ≤ n := by
        rw [List.length_append, List.length_cons] at hlen
        omega
      have htxA : (p ++ 10 :: θ) ++ (ws ++ β)
          = p ++ 10 :: (θ ++ (ws ++ β)) := by simp
      have htxB : (p ++ 10 :: θ) ++ β = p ++ 10 :: (θ ++ β) := by simp
      rw [htxA, htxB]
      by_cases hps : p.dropWhile isSpace = []
      · have hsp := List.dropWhile_eq_nil_iff.mp hps
        rw [findInvalid_blank_line hsp hp10, findInvalid_blank_line hsp hp10]
        exact ih θ hθlen hθnl β
      · have hmA : matchAt (p ++ 10 :: (θ ++ (ws ++ β)))
            = matchCore (p.dropWhile isSpace ++ 10 :: (θ ++ (ws ++ β))) := by
          unfold matchAt
          rw [dropWhile_append_stop p _ hps]
        have hmB : matchAt (p ++ 10 :: (θ ++ β))
            = matchCore (p.dropWhile isSpace ++ 10 :: (θ ++ β)) := by
          unfold matchAt
          rw [dropWhile_append_stop p _ hps]
        have hplen : (p.dropWhile isSpace).length ≤ p.length :=
          (List.dropWhile_sublist _).length_le
        rcases attemptPair hws (p.dropWhile isSpace) θ β hθnl with
          ⟨cA, cB⟩ | ⟨pr, cA, cB⟩ | ⟨cap, τ, hτnl, hτlen, cA, cB⟩ |
          ⟨hθ58, hβsp, dA, dB⟩
        · rw [findInvalid_none (hmA.trans cA),
            findInvalid_none (hmB.trans cB),
            nextLineStart_append p _ hp10, nextLineStart_append p _ hp10]
          exact ih θ hθlen hθnl β
        · exact ⟨pr.1 :: findInvalid (nextLineStart pr.2), [], [],
            fun x hx => absurd hx (List.not_mem_nil x),
            fun x hx => absurd hx (List.not_mem_nil x),
            by rw [findInvalid_some (hmA.trans cA), List.append_nil],
            by rw [findInvalid_some (hmB.trans cB), List.append_nil]⟩
        · have hτn : τ.length ≤ n := by
            rw [List.length_append, List.length_cons] at hlen
            omega
          obtain ⟨X, EA, EB, aEA, aEB, fA, fB⟩ := ih τ hτn hτnl β
          refine ⟨cap :: X, EA, EB, aEA, aEB, ?_, ?_⟩
          · rw [findInvalid_some (hmA.trans cA), nextLineStart_cons_nl, fA,
              List.cons_append]
          · rw [findInvalid_some (hmB.trans cB), nextLineStart_cons_nl, fB,
              List.cons_append]
        · have hsp58A : ∀ c ∈ θ ++ (ws ++ β), isSpace c = true ∨ c = 58 := by
            intro c hc
            rcases List.mem_append.mp hc with h | h
            · exact hθ58 c h
            · rcases List.mem_append.mp h with h | h
              · exact Or.inl ((hws c h).1)
              · exact Or.inl (hβsp c h)
          have hsp58B : ∀ c ∈ θ ++ β, isSpace c = true ∨ c = 58 := by
            intro c hc
            rcases List.mem_append.mp hc with h | h
            · exact hθ58 c h
            · exact Or.inl (hβsp c h)
          obtain ⟨EA, aEA, fA⟩ :
              ∃ EA, AllDelim EA ∧
                findInvalid (p ++ 10 :: (θ ++ (ws ++ β))) = EA := by
            rcases dA with h | ⟨cl, r, hcl, hr, h⟩
            · refine ⟨[], fun x hx => absurd hx (List.not_mem_nil x), ?_⟩
              rw [findInvalid_none (hmA.trans h),
                nextLineStart_append p _ hp10]
              exact findInvalid_sp58 _ _ le_rfl hsp58A
            · refine ⟨[[cl]], ?_, ?_⟩
              · intro x hx c hc
                rw [List.mem_singleton] at hx
                subst hx
                rw [List.mem_singleton] at hc
                subst hc
                simp [isTokenDelim, hcl]
              · rw [findInvalid_some (hmA.trans h)]
                have hr58 : ∀ x ∈ nextLineStart r,
                    isSpace x = true ∨ x = 58 := by
                  intro x hx
                  have hsub : nextLineStart r <:+ r :=
                    (List.tail_suffix _).trans (List.dropWhile_suffix _)
                  have hx10 := hr x (hsub.subset hx)
                  subst hx10
                  exact Or.inl (by decide)
                rw [findInvalid_sp58 _ _ le_rfl hr58]
          obtain ⟨EB, aEB, fB⟩ :
              ∃ EB, AllDelim EB ∧
                findInvalid (p ++ 10 :: (θ ++ β)) = EB := by
            rcases dB with h | ⟨cl, r, hcl, hr, h⟩
            · refine ⟨[], fun x hx => absurd hx (List.not_mem_nil x), ?_⟩
              rw [findInvalid_none (hmB.trans h),
                nextLineStart_append p _ hp10]
              exact findInvalid_sp58 _ _ le_rfl hsp58B
            · refine ⟨[[cl]], ?_, ?_⟩
              · intro x hx c hc
                rw [List.mem_singleton] at hx
                subst hx
                rw [List.mem_singleton] at hc
                subst hc
                simp [isTokenDelim, hcl]
              · rw [findInvalid_some (hmB.trans h)]
                have hr58 : ∀ x ∈ nextLineStart r,
                    isSpace x = true ∨ x = 58 := by
                  intro x hx
                  have hsub : nextLineStart r <:+ r :=
                    (List.tail_suffix _).trans (List.dropWhile_suffix _)
                  have hx10 := hr x (hsub.subset hx)
                  subst hx10
                  exact Or.inl (by decide)
                rw [findInvalid_sp58 _ _ le_rfl hr58]
          exact ⟨[], EA, EB, aEA, aEB, by rw [fA, List.nil_append],
            by rw [fB, List.nil_append]⟩

theorem detectFrom_append_delims (existing : List Str) (L : List Str) :
    ∀ T : List Str, AllDelim T →
      detectFrom (L ++ T) existing = detectFrom L existing := by
  intro T
  induction T using List.reverseRecOn with
  | nil => intro _; simp
  | append_singleton T x ih =>
    intro hT
    rw [← List.append_assoc,
      detectFrom_append_one existing (L ++ T) x (hT x (by simp)),
      ih fun v hv => hT v (by simp [hv])]

theorem joinWith_append_left (sep : Nat) :
    ∀ (L M : List Str), L ≠ [] → M ≠ [] →
      joinWith sep (L ++ M) = joinWith sep L ++ sep :: joinWith sep M
  | [], _, h, _ => absurd rfl h
  | [l], M, _, hM => by
    cases M with
    | nil => exact absurd rfl hM
    | cons m M' => rfl
  | l :: l2 :: L, M, _, hM => by
    have ih := joinWith_append_left sep (l2 :: L) M (by simp) hM
    simp only [List.cons_append] at ih ⊢
    show l ++ sep :: joinWith sep (l2 :: (L ++ M))
        = (l ++ sep :: joinWith sep (l2 :: L)) ++ sep :: joinWith sep M
    rw [ih]
    simp

theorem joinWith_cons_indent (ws l : Str) (suf : List Str) :
    joinWith 10 ((ws ++ l) :: suf) = ws ++ joinWith 10 (l :: suf) := by
  cases suf with
  | nil => rfl
  | cons s suf' =>
    show (ws ++ l) ++ 10 :: joinWith 10 (s :: suf') = _
    rw [List.append_assoc]
    rfl

/-- Claim C10: the regex pattern begins with `\s*` right after the line
anchor, so a marker line indented with non-newline whitespace yields exactly
the output of the unindented line: for every response built from
newline-free lines, inserting such indentation before one line leaves
`detect_potential_invalids` unchanged. -/
theorem detect_indented (pre suf : List Str) (ws l : Str) (existing : List Str)
    (hpre : ∀ s ∈ pre, (10 : Nat) ∉ s) (hsuf : ∀ s ∈ suf, (10 : Nat) ∉ s)
    (hl : (10 : Nat) ∉ l) (hws : ∀ c ∈ ws, isSpace c = true ∧ c ≠ 10) :
    detect_potential_invalids (joinWith 10 (pre ++ (ws ++ l) :: suf)) existing
      = detect_potential_invalids (joinWith 10 (pre ++ l :: suf)) existing := by
  have hws' : WsOk ws := hws
  cases pre with
  | nil =>
    rw [List.nil_append, List.nil_append, joinWith_cons_indent]
    exact detect_congr (findInvalid_ws_prepend hws' _) existing
  | cons p0 pre' =>
    rw [joinWith_append_left 10 (p0 :: pre') ((ws ++ l) :: suf) (by simp)
        (by simp),
      joinWith_append_left 10 (p0 :: pre') (l :: suf) (by simp) (by simp),
      joinWith_cons_indent]
    have hA : joinWith 10 (p0 :: pre') ++ 10 :: (ws ++ joinWith 10 (l :: suf))
        = (joinWith 10 (p0 :: pre') ++ [10])
            ++ (ws ++ joinWith 10 (l :: suf)) := by simp
    have hB : joinWith 10 (p0 :: pre') ++ 10 :: joinWith 10 (l :: suf)
        = (joinWith 10 (p0 :: pre') ++ [10]) ++ joinWith 10 (l :: suf) := by
      simp
    rw [hA, hB]
    have hend : EndNl (joinWith 10 (p0 :: pre') ++ [10]) := Or.inr (by
      rw [List.getLast?_append_of_ne_nil (joinWith 10 (p0 :: pre')) (by simp)]
      rfl)
    obtain ⟨X, EA, EB, aEA, aEB, fA, fB⟩ :=
      findPair hws' (joinWith 10 (p0 :: pre') ++ [10]).length
        (joinWith 10 (p0 :: pre') ++ [10]) le_rfl hend (joinWith 10 (l :: suf))
    unfold detect_potential_invalids
    rw [fA, fB, detectFrom_append_delims existing X EA aEA,
      detectFrom_append_delims existing X EB aEB]

/-! ### Claim C1: the line-validity predicate -/

theorem isWordChar_iff {c : Nat} :
    isWordChar c = true ↔ pyAlpha c = true ∨ c = 45 := by
  unfold isWordChar
  simp

/-- Claim C1 counterexample: the line `CAFÉ` (with the Latin-1 letter `É`,
code point 201) is a line of the file content `"CAFÉ\n"` and is retained by
`load_blocklist` as `café`, although it fails the spec's validity predicate:
Python's `str.isalpha` accepts accented letters, so the claimed
ASCII-letters-only characterisation of the retained lines is too narrow. -/
theorem load_unicode_cex :
    str "café" ∈ (load_blocklist ⟨some (str "CAFÉ\n"), []⟩).2 ∧
      str "CAFÉ" ∈ splitLines (str "CAFÉ\n") ∧
      ¬ specLineValid (str "CAFÉ") := by decide

/-- Claim C1 amended, with code points restricted to Latin-1 (the range on
which the embedding models Python's character predicates exactly): a word is
returned by load from a present file iff it is the trim+lowercase form of
some line that, after trimming and lowercasing, is non-empty, does not start
with `#` or `-`, and consists only of characters alphabetic in Python's
sense (`str.isalpha`) or hyphens; and clean persists exactly the words load
returns, one per line. -/
theorem load_clean_line_validity (fs : FS) (content : Str)
    (hf : fs.blocklist = some content) (hscope : ∀ c ∈ content, c < 256) :
    (∀ w : Str, w ∈ (load_blocklist fs).2 ↔
      ∃ line ∈ splitLines content, pyLineValid line ∧ lower (strip line) = w)
    ∧ (clean_blocklist_file fs).blocklist
        = some (writeWords ((load_blocklist fs).2)) := by
  constructor
  · intro w
    have hload : (load_blocklist fs).2 = canon (acceptedWords content) := by
      unfold load_blocklist
      rw [hf]
    rw [hload, mem_canon]
    unfold acceptedWords
    rw [List.mem_filterMap]
    constructor
    · rintro ⟨line, hline, hacc⟩
      obtain ⟨hw, hne, h35, h45, hall⟩ := acceptLine_eq_some.mp hacc
      subst hw
      rw [List.all_eq_true] at hall
      refine ⟨line, hline, ⟨hne, h35, h45, ?_⟩, rfl⟩
      intro c hc
      exact isWordChar_iff.mp (hall c hc)
    · rintro ⟨line, hline, ⟨hne, h35, h45, hall⟩, rfl⟩
      refine ⟨line, hline, acceptLine_eq_some.mpr ⟨rfl, hne, h35, h45, ?_⟩⟩
      rw [List.all_eq_true]
      intro c hc
      exact isWordChar_iff.mpr (hall c hc)
  · unfold clean_blocklist_file load_blocklist
    rw [hf]

/-- Witness for the amended C1 at a one-line ASCII file: `cat` is retained
because the line `cat` satisfies the amended predicate. -/
theorem load_clean_line_validity_w :
    str "cat" ∈ (load_blocklist ⟨some (str "cat\n"), []⟩).2 :=
  ((load_clean_line_validity ⟨some (str "cat\n"), []⟩ (str "cat\n") rfl
      (by decide)).1 (str "cat")).mpr
    ⟨str "cat", by decide, by decide, by decide⟩

/-- Witness for C10 at a concrete response: indenting the marker line with
two spaces leaves the parsed result unchanged. -/
theorem detect_indented_w :
    detect_potential_invalids
        (joinWith 10 ([str "ok"] ++ (str "  " ++ str "INVALID: zebra") :: []))
        []
      = detect_potential_invalids
          (joinWith 10 ([str "ok"] ++ str "INVALID: zebra" :: [])) [] :=
  detect_indented [str "ok"] [] (str "  ") (str "INVALID: zebra") []
    (by decide) (by decide) (by decide) (by decide)

end Quartiles
